import Mathlib

/-!
Verification of the agent-box session-state reconciliation engine.

This file embeds the core data model and operations of the repository
(`src/model.rs`, `src/security.rs`, `src/sync.rs`, and the per-tick
prune/merge step of `src/main.rs`) as executable Lean definitions, and
proves or refutes the frozen specification claims about them.

Rust strings are modelled as lists of Unicode scalar values
(`List Char`); byte positions inside a string are tracked via UTF-8
byte sizes where the source indexes by bytes.  Machine integers are
modelled as `Nat`, with saturating / wrapping behaviour made explicit
at the operations that use it.
-/

namespace AgentBox

/-- Rust `String` contents, as a list of Unicode scalar values. -/
abbrev Str := List Char

/-! ## Embedding of `src/model.rs` -/

/-- `AgentKind` from `src/model.rs`. -/
inductive AgentKind
  | Claude
  | Codex
  | Gemini
  | Unknown
  deriving DecidableEq, Repr

/-- `SessionStatus` from `src/model.rs`. -/
inductive SessionStatus
  | Running
  | WaitingInput
  | Success
  | Failed
  | Stopped
  deriving DecidableEq, Repr

/-- `SessionStatus::is_terminal` from `src/model.rs`. -/
def SessionStatus.is_terminal : SessionStatus → Bool
  | .Success => true
  | .Failed => true
  | .Stopped => true
  | _ => false

/-- `SessionEvent` from `src/model.rs`. -/
structure SessionEvent where
  id : Str
  agent : AgentKind
  title : Str
  working_dir : Str
  user : Str
  status : SessionStatus
  pending_action : Option Str
  started_at_unix_ms : Nat
  updated_at_unix_ms : Nat
  last_lines : List Str
  deriving DecidableEq, Repr

/-- `SessionEvent::can_transition_to` from `src/model.rs`. -/
def SessionEvent.can_transition_to (e : SessionEvent) (next : SessionStatus) : Bool :=
  match e.status, next with
  | .Success, _ => false
  | .Failed, _ => false
  | .Stopped, _ => false
  | .Running, _ => true
  | .WaitingInput, .WaitingInput => true
  | .WaitingInput, .Running => true
  | .WaitingInput, .Stopped => true
  | .WaitingInput, .Success => false
  | .WaitingInput, .Failed => false

/-- The sessions map of `RuntimeStateStore` from `src/model.rs`
(`HashMap<String, SessionEvent>` modelled extensionally as a partial map). -/
def StoreMap := Str → Option SessionEvent

/-- The empty store (`RuntimeStateStore::default`). -/
def StoreMap.empty : StoreMap := fun _ => none

/-- `self.sessions.get(id)` / `RuntimeStateStore::get`. -/
def StoreMap.get (s : StoreMap) (id : Str) : Option SessionEvent := s id

/-- `self.sessions.insert(incoming.id.clone(), incoming)` (plain map insert). -/
def StoreMap.insertEv (s : StoreMap) (e : SessionEvent) : StoreMap :=
  fun id => if id = e.id then some e else s id

/-- `RuntimeStateStore::upsert` from `src/model.rs`: returns the `applied`
flag together with the updated store. -/
def StoreMap.upsert (s : StoreMap) (incoming : SessionEvent) : Bool × StoreMap :=
  match s incoming.id with
  | some existing =>
      if incoming.updated_at_unix_ms < existing.updated_at_unix_ms then
        (false, s)
      else if existing.can_transition_to incoming.status = false ∧
          incoming.status ≠ existing.status then
        (false, s)
      else
        (true, s.insertEv incoming)
  | none => (true, s.insertEv incoming)

/-- A store operation: `upsert` or `clear` (`src/model.rs`). -/
inductive StoreOp
  | up (e : SessionEvent)
  | clear
  deriving DecidableEq

/-- Apply one store operation. -/
def StoreMap.applyOp (s : StoreMap) : StoreOp → StoreMap
  | .up e => (s.upsert e).2
  | .clear => fun _ => none

/-- Apply a sequence of store operations in order. -/
def StoreMap.applyOps (s : StoreMap) (ops : List StoreOp) : StoreMap :=
  ops.foldl StoreMap.applyOp s

/-- A concrete sample event with id `"a"` (status and timestamp varying),
used to instantiate witnesses. -/
def evA (st : SessionStatus) (ts : Nat) : SessionEvent :=
  { id := "a".toList
    agent := .Claude
    title := "demo".toList
    working_dir := "/tmp".toList
    user := "alice".toList
    status := st
    pending_action := none
    started_at_unix_ms := 1
    updated_at_unix_ms := ts
    last_lines := [] }

/-! ## Store lemmas -/

theorem StoreMap.get_insertEv_self (s : StoreMap) (e : SessionEvent) :
    (s.insertEv e).get e.id = some e := by
  simp [StoreMap.get, StoreMap.insertEv]

theorem StoreMap.get_insertEv_other (s : StoreMap) (e : SessionEvent) (id : Str)
    (h : id ≠ e.id) : (s.insertEv e).get id = s.get id := by
  simp [StoreMap.get, StoreMap.insertEv, h]

theorem StoreMap.get_upsert_other (s : StoreMap) (r : SessionEvent) (id : Str)
    (h : id ≠ r.id) : (s.upsert r).2.get id = s.get id := by
  unfold StoreMap.upsert
  cases hs : s r.id with
  | none => simpa using StoreMap.get_insertEv_other s r id h
  | some existing =>
      by_cases h1 : r.updated_at_unix_ms < existing.updated_at_unix_ms
      · simp [h1, StoreMap.get]
      · by_cases h2 : existing.can_transition_to r.status = false ∧ r.status ≠ existing.status
        · simp [h1, h2, StoreMap.get]
        · simpa [h1, h2] using StoreMap.get_insertEv_other s r id h

/-- After an `upsert`, the record stored at `id` (when present before) is
either unchanged or replaced by a record with a timestamp at least as large. -/
theorem StoreMap.get_upsert_mono (s : StoreMap) (r : SessionEvent) (id : Str)
    (e : SessionEvent) (h : s.get id = some e) :
    ∃ e', (s.upsert r).2.get id = some e' ∧
      e.updated_at_unix_ms ≤ e'.updated_at_unix_ms := by
  by_cases hid : id = r.id
  · subst hid
    unfold StoreMap.upsert
    rw [show s r.id = some e from h]
    by_cases h1 : r.updated_at_unix_ms < e.updated_at_unix_ms
    · exact ⟨e, by simpa [h1] using h, le_refl _⟩
    · by_cases h2 : e.can_transition_to r.status = false ∧ r.status ≠ e.status
      · exact ⟨e, by simpa [h1, h2] using h, le_refl _⟩
      · refine ⟨r, ?_, by omega⟩
        have hr := StoreMap.get_insertEv_self s r
        simpa [h1, h2] using hr
  · exact ⟨e, by rw [StoreMap.get_upsert_other s r id hid]; exact h, le_refl _⟩

/-- C1: with an existing entry `e` for `r.id` and a strictly older incoming
timestamp, `upsert` returns `false` and leaves the entry untouched. -/
theorem upsert_stale_write_rejected (s : StoreMap) (e r : SessionEvent)
    (hget : s.get r.id = some e)
    (hlt : r.updated_at_unix_ms < e.updated_at_unix_ms) :
    (s.upsert r).1 = false ∧ (s.upsert r).2.get r.id = some e := by
  unfold StoreMap.upsert
  rw [show s r.id = some e from hget]
  simp [hlt]
  exact hget

/-- Witness for C1 at a concrete store and records. -/
theorem upsert_stale_write_rejected_witness :
    ((StoreMap.empty.upsert (evA .Running 20)).2.upsert (evA .Running 19)).1 = false ∧
      ((StoreMap.empty.upsert (evA .Running 20)).2.upsert (evA .Running 19)).2.get
        (evA .Running 19).id = some (evA .Running 20) :=
  upsert_stale_write_rejected _ _ _ (by decide) (by decide)

/-- C2: with a terminal existing entry, any different-status `upsert` is
rejected and leaves the entry unchanged, while a same-status `upsert` with a
non-decreasing timestamp is accepted and replaces the entry wholesale. -/
theorem upsert_terminal_guard (s : StoreMap) (e r : SessionEvent)
    (hget : s.get r.id = some e)
    (hterm : e.status.is_terminal = true) :
    (r.status ≠ e.status →
      (s.upsert r).1 = false ∧ (s.upsert r).2.get r.id = some e) ∧
    (r.status = e.status → e.updated_at_unix_ms ≤ r.updated_at_unix_ms →
      (s.upsert r).1 = true ∧ (s.upsert r).2.get r.id = some r) := by
  have hcan : e.can_transition_to r.status = false := by
    unfold SessionEvent.can_transition_to
    cases hst : e.status <;> simp [hst, SessionStatus.is_terminal] at hterm ⊢
  constructor
  · intro hne
    unfold StoreMap.upsert
    rw [show s r.id = some e from hget]
    by_cases h1 : r.updated_at_unix_ms < e.updated_at_unix_ms
    · simpa [h1] using hget
    · simpa [h1, hcan, hne] using hget
  · intro heq hle
    unfold StoreMap.upsert
    rw [show s r.id = some e from hget]
    have h1 : ¬ r.updated_at_unix_ms < e.updated_at_unix_ms := by omega
    simpa [h1, heq] using StoreMap.get_insertEv_self s r

/-- Witness for C2: terminal `Success` entry, same-status refresh accepted. -/
theorem upsert_terminal_guard_witness :
    ((evA .Running 21).status ≠ (evA .Success 20).status →
      (((StoreMap.empty.upsert (evA .Success 20)).2.upsert (evA .Running 21)).1 = false ∧
        ((StoreMap.empty.upsert (evA .Success 20)).2.upsert (evA .Running 21)).2.get
          (evA .Running 21).id = some (evA .Success 20))) ∧
    ((evA .Running 21).status = (evA .Success 20).status →
      (evA .Success 20).updated_at_unix_ms ≤ (evA .Running 21).updated_at_unix_ms →
      (((StoreMap.empty.upsert (evA .Success 20)).2.upsert (evA .Running 21)).1 = true ∧
        ((StoreMap.empty.upsert (evA .Success 20)).2.upsert (evA .Running 21)).2.get
          (evA .Running 21).id = some (evA .Running 21))) :=
  upsert_terminal_guard _ _ _ (by decide) (by decide)

/-- C9 counterexample: across a sequence containing `clear`, the timestamp
returned by `get` for a fixed id can decrease (100 before, 50 after). -/
theorem updated_at_decreases_across_clear :
    (StoreMap.applyOps StoreMap.empty [.up (evA .Running 100)]).get ("a".toList) =
      some (evA .Running 100) ∧
    (StoreMap.applyOps StoreMap.empty
        [.up (evA .Running 100), .clear, .up (evA .Running 50)]).get ("a".toList) =
      some (evA .Running 50) ∧
    (evA .Running 50).updated_at_unix_ms < (evA .Running 100).updated_at_unix_ms := by
  refine ⟨by decide, by decide, by decide⟩

/-- C9 (amended): across any sequence of store operations that contains no
`clear`, the `updated_at_unix_ms` of the record returned by `get` for a fixed
id never decreases. -/
theorem updated_at_monotone_without_clear (s : StoreMap) (ops : List StoreOp)
    (id : Str) (e e' : SessionEvent)
    (hnc : StoreOp.clear ∉ ops)
    (h1 : s.get id = some e)
    (h2 : (s.applyOps ops).get id = some e') :
    e.updated_at_unix_ms ≤ e'.updated_at_unix_ms := by
  induction ops generalizing s e with
  | nil =>
      simp only [StoreMap.applyOps, List.foldl_nil] at h2
      rw [h1] at h2
      cases h2
      exact le_refl _
  | cons op rest ih =>
      have hop : op ≠ StoreOp.clear := fun h => hnc (h ▸ List.mem_cons_self _ _)
      have hnc' : StoreOp.clear ∉ rest := fun h => hnc (List.mem_cons_of_mem _ h)
      cases op with
      | clear => exact absurd rfl hop
      | up r =>
          obtain ⟨e'', hg, hle⟩ := StoreMap.get_upsert_mono s r id e h1
          have h2' : ((s.upsert r).2.applyOps rest).get id = some e' := by
            simpa [StoreMap.applyOps, StoreMap.applyOp] using h2
          exact le_trans hle (ih _ _ hnc' hg h2')

/-- Witness for C9 (amended): a clear-free sequence only raises the timestamp. -/
theorem updated_at_monotone_without_clear_witness :
    (evA .Running 20).updated_at_unix_ms ≤ (evA .Running 30).updated_at_unix_ms :=
  updated_at_monotone_without_clear
    (StoreMap.empty.upsert (evA .Running 20)).2
    [.up (evA .Running 30)] ("a".toList) (evA .Running 20) (evA .Running 30)
    (by decide) (by decide) (by decide)

/-! ## Per-tick prune and merge (`src/main.rs`, reconciliation loop) -/

/-- A remote-cache entry: namespaced id key mapped to the cached record and
its `last_seen_at_ms` stamp (`HashMap<String, (SessionEvent, u64)>` in
`src/main.rs`, modelled as an association list with unique keys). -/
abbrev RemoteCache := List (Str × SessionEvent × Nat)

/-- `remote_ttl_ms = (tick_secs * 8 * 1000) as u64` from `src/main.rs`
(wrapping `u64` arithmetic made explicit). -/
def remoteTtlMs (tickSecs : Nat) : Nat := (tickSecs * 8 * 1000) % (2 ^ 64)

/-- The `remote_cache.retain(...)` step of `src/main.rs`: keep entries with
`now_ms.saturating_sub(seen_at) <= remote_ttl_ms` (`Nat` subtraction is
saturating). -/
def pruneCache (cache : RemoteCache) (nowMs ttl : Nat) : RemoteCache :=
  cache.filter fun ent => decide (nowMs - ent.2.2 ≤ ttl)

/-- The combined-store rebuild of `src/main.rs`: clear, upsert every local
event, then upsert every surviving remote-cache record (`applied` ignored). -/
def rebuildCombined (localEvents : List SessionEvent) (cache : RemoteCache) :
    StoreMap :=
  let s := localEvents.foldl (fun st ev => (st.upsert ev).2) StoreMap.empty
  cache.foldl (fun st ent => (st.upsert ent.2.1).2) s

/-- One tick's prune-then-merge step (`src/main.rs` lines 174–184). -/
def tickCombined (localEvents : List SessionEvent) (cache : RemoteCache)
    (nowMs tickSecs : Nat) : StoreMap :=
  rebuildCombined localEvents (pruneCache cache nowMs (remoteTtlMs tickSecs))

theorem get_foldl_upsert_of_ne (evs : List SessionEvent) (s : StoreMap) (id : Str)
    (h : ∀ e ∈ evs, e.id ≠ id) :
    (evs.foldl (fun st ev => (st.upsert ev).2) s).get id = s.get id := by
  induction evs generalizing s with
  | nil => rfl
  | cons e rest ih =>
      have he : e.id ≠ id := h e (List.mem_cons_self _ _)
      have hrest : ∀ x ∈ rest, x.id ≠ id := fun x hx => h x (List.mem_cons_of_mem _ hx)
      rw [List.foldl_cons, ih _ hrest, StoreMap.get_upsert_other _ _ _ (Ne.symm he)]

/-- Upserting into a store with no entry at the record's id inserts it. -/
theorem StoreMap.get_upsert_fresh (s : StoreMap) (r : SessionEvent)
    (h : s.get r.id = none) :
    (s.upsert r).1 = true ∧ (s.upsert r).2.get r.id = some r := by
  unfold StoreMap.upsert
  rw [show s r.id = none from h]
  exact ⟨rfl, StoreMap.get_insertEv_self s r⟩

/-- Folding the remote cache into the store is folding its record values. -/
theorem cacheFold_eq_eventFold (cache : RemoteCache) (s : StoreMap) :
    cache.foldl (fun st ent => (st.upsert ent.2.1).2) s =
      (cache.map (fun ent => ent.2.1)).foldl (fun st ev => (st.upsert ev).2) s := by
  rw [List.foldl_map]

theorem get_foldl_cache_of_mem (cache : RemoteCache) (s : StoreMap) (id : Str)
    (ev : SessionEvent) (seen : Nat)
    (hmem : (id, ev, seen) ∈ cache)
    (hkey : ∀ ent ∈ cache, ent.2.1.id = ent.1)
    (hnodup : (cache.map Prod.fst).Nodup)
    (hid : ev.id = id)
    (hs : s.get id = none) :
    (cache.foldl (fun st ent => (st.upsert ent.2.1).2) s).get id = some ev := by
  induction cache generalizing s with
  | nil => cases hmem
  | cons ent rest ih =>
      rw [List.map_cons, List.nodup_cons] at hnodup
      rcases List.mem_cons.mp hmem with heq | hmemr
      · subst heq
        have hrest : ∀ x ∈ rest.map (fun ent => ent.2.1), x.id ≠ id := by
          intro x hx
          rcases List.mem_map.mp hx with ⟨y, hy, rfl⟩
          have hy1 : y.2.1.id = y.1 := hkey y (List.mem_cons_of_mem _ hy)
          rw [hy1]
          intro hcontra
          have hmap : y.1 ∈ rest.map Prod.fst := List.mem_map_of_mem Prod.fst hy
          rw [hcontra] at hmap
          exact hnodup.1 hmap
        have hsid : s.get ev.id = none := by rw [hid]; exact hs
        have hins := StoreMap.get_upsert_fresh s ev hsid
        rw [List.foldl_cons, cacheFold_eq_eventFold,
          get_foldl_upsert_of_ne _ _ id hrest]
        simpa [hid] using hins.2
      · have hne : ent.2.1.id ≠ id := by
          have h1 : ent.2.1.id = ent.1 := hkey ent (List.mem_cons_self _ _)
          rw [h1]
          intro hcontra
          have hmap : id ∈ rest.map Prod.fst :=
            List.mem_map_of_mem Prod.fst hmemr
          rw [hcontra] at hnodup
          exact hnodup.1 hmap
        have hs' : (s.upsert ent.2.1).2.get id = none := by
          rw [StoreMap.get_upsert_other _ _ _ (Ne.symm hne)]
          exact hs
        rw [List.foldl_cons]
        exact ih _ hmemr (fun x hx => hkey x (List.mem_cons_of_mem _ hx)) hnodup.2 hs'

/-- C8: after the per-tick prune, a remote-cache entry older than
`8 × tickIntervalMs` is absent from the rebuilt combined store, while an
entry whose age is at most that bound survives and appears in it. -/
theorem remote_cache_ttl (tickSecs nowMs : Nat) (cache : RemoteCache)
    (localEvents : List SessionEvent) (id : Str) (ev : SessionEvent) (seen : Nat)
    (hof : tickSecs * 8 * 1000 < 2 ^ 64)
    (hmem : (id, ev, seen) ∈ cache)
    (hkey : ∀ ent ∈ cache, ent.2.1.id = ent.1)
    (hnodup : (cache.map Prod.fst).Nodup)
    (hid : ev.id = id)
    (hlocal : ∀ le ∈ localEvents, le.id ≠ id) :
    (nowMs - seen > tickSecs * 8 * 1000 →
      (tickCombined localEvents cache nowMs tickSecs).get id = none) ∧
    (nowMs - seen ≤ tickSecs * 8 * 1000 →
      (tickCombined localEvents cache nowMs tickSecs).get id = some ev) := by
  have httl : remoteTtlMs tickSecs = tickSecs * 8 * 1000 := Nat.mod_eq_of_lt hof
  have hlocget :
      (localEvents.foldl (fun st ev => (st.upsert ev).2) StoreMap.empty).get id = none := by
    rw [get_foldl_upsert_of_ne _ _ _ hlocal]
    rfl
  constructor
  · intro hold
    have hpruned : ∀ ent ∈ pruneCache cache nowMs (remoteTtlMs tickSecs),
        ent.2.1.id ≠ id := by
      intro ent hent
      rw [pruneCache, List.mem_filter] at hent
      have hcache := hent.1
      have hcond : nowMs - ent.2.2 ≤ remoteTtlMs tickSecs := by
        simpa using hent.2
      have hk : ent.2.1.id = ent.1 := hkey ent hcache
      rw [hk]
      intro hcontra
      have hentEq : ent = (id, ev, seen) :=
        List.inj_on_of_nodup_map hnodup hcache hmem hcontra
      rw [hentEq] at hcond
      rw [httl] at hcond
      simp at hcond
      omega
    rw [tickCombined, rebuildCombined, cacheFold_eq_eventFold]
    rw [get_foldl_upsert_of_ne _ _ id (by
      intro x hx
      rcases List.mem_map.mp hx with ⟨y, hy, rfl⟩
      exact hpruned y hy)]
    exact hlocget
  · intro hyoung
    have hmem' : (id, ev, seen) ∈ pruneCache cache nowMs (remoteTtlMs tickSecs) := by
      rw [pruneCache, List.mem_filter]
      exact ⟨hmem, by simpa [httl] using hyoung⟩
    have hsub : ∀ ent ∈ pruneCache cache nowMs (remoteTtlMs tickSecs), ent ∈ cache := by
      intro ent hent
      exact (List.mem_filter.mp hent).1
    rw [tickCombined, rebuildCombined]
    exact get_foldl_cache_of_mem _ _ id ev seen hmem'
      (fun ent hent => hkey ent (hsub ent hent))
      (List.Nodup.sublist (List.Sublist.map Prod.fst (List.filter_sublist _)) hnodup)
      hid hlocget

/-- A concrete remote record with id `"r"` for the C8 witness. -/
def evR : SessionEvent :=
  { id := "r".toList
    agent := .Codex
    title := "remote".toList
    working_dir := "/tmp".toList
    user := "bob@peer".toList
    status := .Running
    pending_action := none
    started_at_unix_ms := 1
    updated_at_unix_ms := 20000
    last_lines := [] }

/-- Witness for C8 at a concrete tick: one cached entry aged 5000 ms with a
TTL of 8000 ms. -/
theorem remote_cache_ttl_witness :
    ((20000 : Nat) - 15000 > 1 * 8 * 1000 →
      (tickCombined [] [("r".toList, evR, 15000)] 20000 1).get ("r".toList) = none) ∧
    ((20000 : Nat) - 15000 ≤ 1 * 8 * 1000 →
      (tickCombined [] [("r".toList, evR, 15000)] 20000 1).get ("r".toList) = some evR) :=
  remote_cache_ttl 1 20000 [("r".toList, evR, 15000)] [] ("r".toList) evR 15000
    (by decide) (by decide) (by decide) (by decide) (by decide) (by decide)

/-! ## Embedding of `src/security.rs` -/

/-- UTF-8 byte count of a Unicode scalar value. -/
def utf8SizeC (c : Char) : Nat :=
  if c.toNat < 0x80 then 1
  else if c.toNat < 0x800 then 2
  else if c.toNat < 0x10000 then 3
  else 4

/-- UTF-8 byte length of a string (`str::len` in Rust). -/
def utf8Len (s : Str) : Nat := (s.map utf8SizeC).sum

/-- `char`-level lowercasing as performed by Rust `str::to_lowercase`,
modelled for the characters this development exercises: ASCII uppercase
letters map to their lowercase forms and U+0130 (LATIN CAPITAL LETTER I WITH
DOT ABOVE) maps to `i` followed by U+0307 (COMBINING DOT ABOVE), per Unicode
SpecialCasing; other characters are kept unchanged. -/
def rustLowerChar (c : Char) : Str :=
  if c.toNat = 0x130 then [Char.ofNat 0x69, Char.ofNat 0x307]
  else if 0x41 ≤ c.toNat ∧ c.toNat ≤ 0x5A then [Char.ofNat (c.toNat + 32)]
  else [c]

/-- `out.to_lowercase()` inside `redact_line`. -/
def rustToLowercase (s : Str) : Str := (s.map rustLowerChar).flatten

/-- `pat` is an initial segment of the second argument. -/
def leadsWith : Str → Str → Bool
  | [], _ => true
  | _ :: _, [] => false
  | a :: as, b :: bs => a == b && leadsWith as bs

/-- `str::find(pat)`: byte index of the first occurrence of `pat`
(scalar-boundary occurrences; the patterns used here are ASCII, for which
this coincides with Rust's byte-level search). -/
def findBytePos (pat : Str) : Str → Option Nat
  | [] => if pat.isEmpty then some 0 else none
  | c :: rest =>
      if leadsWith pat (c :: rest) then some 0
      else (findBytePos pat rest).map fun n => utf8SizeC c + n

/-- The byte slice `&out[..n]`: `some` prefix when `n` falls on a scalar
boundary inside the string, `none` when the slice would panic (out of
bounds or not a character boundary). -/
def takeBytes : Str → Nat → Option Str
  | _, 0 => some []
  | [], _ + 1 => none
  | c :: rest, n + 1 =>
      if utf8SizeC c ≤ n + 1 then
        (takeBytes rest (n + 1 - utf8SizeC c)).map (c :: ·)
      else none

/-- The literal `[REDACTED]`. -/
def redactedLit : Str := "[REDACTED]".toList

/-- The `suspects` array of `redact_line`, in source order. -/
def suspects : List Str :=
  ["api_key=".toList, "token=".toList, "password=".toList, "secret=".toList]

/-- One iteration of the `for suspect in suspects` loop of `redact_line`;
`none` models a panicking byte slice. -/
def redactStep (out : Str) (suspect : Str) : Option Str :=
  match findBytePos suspect (rustToLowercase out) with
  | none => some out
  | some idx =>
      match takeBytes out (idx + utf8Len suspect) with
      | none => none
      | some pre => some (pre ++ redactedLit)

/-- `redact_line` from `src/security.rs`; `none` models a panic. -/
def redactLine (line : Str) : Option Str :=
  suspects.foldlM redactStep line

/-- `SecurityLayer::filter_sensitive`: redact every line of `last_lines`;
`none` models a panic in `redact_line`. -/
def filter_sensitive (event : SessionEvent) : Option SessionEvent := do
  let lines ← event.last_lines.mapM redactLine
  pure { event with last_lines := lines }

/-! ### ASCII string lemmas for redaction -/

/-- Every scalar in the string is ASCII. -/
def asciiStr (s : Str) : Prop := ∀ c ∈ s, c.toNat < 0x80

instance (s : Str) : Decidable (asciiStr s) := List.decidableBAll _ s

/-- `pat` occurs in `s` at character position `i`. -/
def occursAt (pat s : Str) (i : Nat) : Prop := leadsWith pat (s.drop i) = true

theorem toNat_ofNat_small (n : Nat) (h : n < 0xd800) : (Char.ofNat n).toNat = n := by
  have hv : n.isValidChar := Or.inl h
  simp [Char.ofNat, Char.toNat, hv, Char.ofNatAux, UInt32.toNat, BitVec.toNat_ofNatLt]

theorem utf8SizeC_eq_one (c : Char) (h : c.toNat < 0x80) : utf8SizeC c = 1 := by
  simp [utf8SizeC, h]

/-- ASCII lowercasing of one character. -/
def lowC (c : Char) : Char :=
  if 0x41 ≤ c.toNat ∧ c.toNat ≤ 0x5A then Char.ofNat (c.toNat + 32) else c

theorem lowC_ascii (c : Char) (h : c.toNat < 0x80) : (lowC c).toNat < 0x80 := by
  unfold lowC
  by_cases hc : 0x41 ≤ c.toNat ∧ c.toNat ≤ 0x5A
  · rw [if_pos hc, toNat_ofNat_small _ (by omega)]
    omega
  · rw [if_neg hc]
    exact h

theorem rustLowerChar_ascii (c : Char) (h : c.toNat < 0x80) :
    rustLowerChar c = [lowC c] := by
  unfold rustLowerChar lowC
  rw [if_neg (by omega)]
  by_cases hc : 0x41 ≤ c.toNat ∧ c.toNat ≤ 0x5A
  · rw [if_pos hc, if_pos hc]
  · rw [if_neg hc, if_neg hc]

theorem rustToLowercase_ascii (s : Str) (h : asciiStr s) :
    rustToLowercase s = s.map lowC := by
  induction s with
  | nil => rfl
  | cons c rest ih =>
      have hc : c.toNat < 0x80 := h c (List.mem_cons_self _ _)
      have hrest : asciiStr rest := fun x hx => h x (List.mem_cons_of_mem _ hx)
      simp only [rustToLowercase, List.map_cons, List.flatten_cons]
      rw [rustLowerChar_ascii c hc]
      simp only [List.cons_append, List.nil_append, List.singleton_append]
      rw [show (rest.map rustLowerChar).flatten = rustToLowercase rest from rfl, ih hrest]

theorem asciiStr_map_lowC (s : Str) (h : asciiStr s) : asciiStr (s.map lowC) := by
  intro x hx
  rcases List.mem_map.mp hx with ⟨c, hc, rfl⟩
  exact lowC_ascii c (h c hc)

theorem asciiStr_append (a b : Str) (ha : asciiStr a) (hb : asciiStr b) :
    asciiStr (a ++ b) := by
  intro x hx
  rcases List.mem_append.mp hx with h | h
  · exact ha x h
  · exact hb x h

theorem asciiStr_take (s : Str) (n : Nat) (h : asciiStr s) : asciiStr (s.take n) :=
  fun x hx => h x (List.mem_of_mem_take hx)

theorem leadsWith_length (pat s : Str) (h : leadsWith pat s = true) :
    pat.length ≤ s.length := by
  induction pat generalizing s with
  | nil => simp
  | cons a as ih =>
      cases s with
      | nil => simp [leadsWith] at h
      | cons b bs =>
          simp only [leadsWith, Bool.and_eq_true] at h
          simpa using ih bs h.2

theorem leadsWith_append (pat s t : Str) (h : leadsWith pat s = true) :
    leadsWith pat (s ++ t) = true := by
  induction pat generalizing s with
  | nil => simp [leadsWith]
  | cons a as ih =>
      cases s with
      | nil => simp [leadsWith] at h
      | cons b bs =>
          simp only [leadsWith, Bool.and_eq_true] at h ⊢
          exact ⟨h.1, by simpa using ih bs h.2⟩

theorem leadsWith_take (pat s : Str) (k : Nat) (h : leadsWith pat s = true)
    (hk : pat.length ≤ k) : leadsWith pat (s.take k) = true := by
  induction pat generalizing s k with
  | nil => simp [leadsWith]
  | cons a as ih =>
      cases s with
      | nil => simp [leadsWith] at h
      | cons b bs =>
          cases k with
          | zero => simp at hk
          | succ k' =>
              simp only [leadsWith, Bool.and_eq_true] at h
              simp only [List.take_succ_cons, leadsWith, Bool.and_eq_true]
              exact ⟨h.1, ih bs k' h.2 (by simpa using hk)⟩

theorem leadsWith_of_take (pat s : Str) (k : Nat)
    (h : leadsWith pat (s.take k) = true) : leadsWith pat s = true := by
  induction pat generalizing s k with
  | nil => simp [leadsWith]
  | cons a as ih =>
      cases s with
      | nil => simpa using h
      | cons b bs =>
          cases k with
          | zero => simp [leadsWith] at h
          | succ k' =>
              simp only [List.take_succ_cons, leadsWith, Bool.and_eq_true] at h ⊢
              exact ⟨h.1, ih bs k' h.2⟩

theorem leadsWith_append_left (pat s t : Str) (h : leadsWith pat (s ++ t) = true)
    (hk : pat.length ≤ s.length) : leadsWith pat s = true := by
  have := leadsWith_take pat (s ++ t) s.length h hk
  rwa [List.take_left] at this

theorem leadsWith_split (pat x b : Str) (h : leadsWith pat (x ++ b) = true)
    (hx : x.length < pat.length) : leadsWith (pat.drop x.length) b = true := by
  induction x generalizing pat with
  | nil => simpa using h
  | cons c cs ih =>
      cases pat with
      | nil => simp at hx
      | cons a as =>
          simp only [List.cons_append, leadsWith, Bool.and_eq_true] at h
          simpa using ih as h.2 (by simpa using hx)

theorem occursAt_append_cases (pat A B : Str) (q : Nat)
    (h : occursAt pat (A ++ B) q) :
    (q + pat.length ≤ A.length ∧ occursAt pat A q) ∨
    (A.length ≤ q ∧ occursAt pat B (q - A.length)) ∨
    (q < A.length ∧ A.length < q + pat.length ∧
      leadsWith (pat.drop (A.length - q)) B = true) := by
  unfold occursAt at h ⊢
  by_cases hq : A.length ≤ q
  · refine Or.inr (Or.inl ⟨hq, ?_⟩)
    rwa [List.drop_append_eq_append_drop, List.drop_of_length_le hq,
      List.nil_append] at h
  · push_neg at hq
    have hdrop : (A ++ B).drop q = A.drop q ++ B := by
      rw [List.drop_append_eq_append_drop]
      have : q - A.length = 0 := by omega
      rw [this, List.drop_zero]
    rw [hdrop] at h
    by_cases hfit : q + pat.length ≤ A.length
    · refine Or.inl ⟨hfit, ?_⟩
      exact leadsWith_append_left pat (A.drop q) B h (by
        rw [List.length_drop]; omega)
    · push_neg at hfit
      refine Or.inr (Or.inr ⟨hq, hfit, ?_⟩)
      have hlen : (A.drop q).length < pat.length := by
        rw [List.length_drop]; omega
      have := leadsWith_split pat (A.drop q) B h hlen
      rwa [List.length_drop] at this

theorem occursAt_of_take (pat s : Str) (m q : Nat)
    (h : occursAt pat (s.take m) q) : occursAt pat s q := by
  unfold occursAt at h ⊢
  rw [List.drop_take] at h
  exact leadsWith_of_take pat (s.drop q) (m - q) h

theorem occursAt_take_append (pat s b : Str) (m q : Nat) (hpat : pat ≠ [])
    (h : occursAt pat s q) (hfit : q + pat.length ≤ m) :
    occursAt pat (s.take m ++ b) q := by
  unfold occursAt at h ⊢
  have hp1 : 1 ≤ pat.length := List.length_pos.mpr hpat
  have hlen := leadsWith_length pat (s.drop q) h
  rw [List.length_drop] at hlen
  have hqs : q + pat.length ≤ s.length := by omega
  have hdrop : (s.take m ++ b).drop q = (s.take m).drop q ++ b := by
    rw [List.drop_append_eq_append_drop]
    have hqlen : q - (s.take m).length = 0 := by
      simp only [List.length_take]
      omega
    rw [hqlen, List.drop_zero]
  rw [hdrop, List.drop_take]
  exact leadsWith_append _ _ _
    (leadsWith_take pat (s.drop q) (m - q) h (by omega))

theorem findBytePos_nil (pat : Str) :
    findBytePos pat [] = if pat.isEmpty then some 0 else none := rfl

theorem findBytePos_cons (pat : Str) (c : Char) (rest : Str) :
    findBytePos pat (c :: rest) =
      if leadsWith pat (c :: rest) = true then some 0
      else (findBytePos pat rest).map fun n => utf8SizeC c + n := rfl

theorem occursAt_zero_iff (pat s : Str) :
    occursAt pat s 0 ↔ leadsWith pat s = true := by
  simp [occursAt]

theorem occursAt_succ_iff (pat : Str) (c : Char) (rest : Str) (q : Nat) :
    occursAt pat (c :: rest) (q + 1) ↔ occursAt pat rest q := by
  simp [occursAt]

/-- `findBytePos` on an ASCII haystack returns exactly the first character
position at which the pattern occurs. -/
theorem findBytePos_ascii_iff (pat s : Str) (i : Nat) (hpat : pat ≠ [])
    (hA : asciiStr s) :
    findBytePos pat s = some i ↔
      occursAt pat s i ∧ ∀ q < i, ¬ occursAt pat s q := by
  induction s generalizing i with
  | nil =>
      rw [findBytePos_nil, if_neg (by simpa [List.isEmpty_iff] using hpat)]
      constructor
      · intro h
        cases h
      · rintro ⟨h1, _⟩
        obtain ⟨a, as, rfl⟩ := List.exists_cons_of_ne_nil hpat
        simp [occursAt, leadsWith] at h1
  | cons c rest ih =>
      have hc : c.toNat < 0x80 := hA c (List.mem_cons_self _ _)
      have hrest : asciiStr rest := fun x hx => hA x (List.mem_cons_of_mem _ hx)
      have hsz : utf8SizeC c = 1 := utf8SizeC_eq_one c hc
      rw [findBytePos_cons]
      by_cases hlw : leadsWith pat (c :: rest) = true
      · rw [if_pos hlw]
        constructor
        · intro h
          rw [Option.some.injEq] at h
          subst h
          exact ⟨(occursAt_zero_iff pat _).mpr hlw, by omega⟩
        · rintro ⟨h1, h2⟩
          cases i with
          | zero => rfl
          | succ i' =>
              exact absurd ((occursAt_zero_iff pat _).mpr hlw) (h2 0 (Nat.succ_pos _))
      · rw [if_neg hlw, hsz]
        simp only [Option.map_eq_some']
        constructor
        · rintro ⟨n, hn, rfl⟩
          obtain ⟨h1, h2⟩ := (ih n hrest).mp hn
          rw [show 1 + n = n + 1 by omega]
          refine ⟨(occursAt_succ_iff pat c rest n).mpr h1, ?_⟩
          intro q hq
          cases q with
          | zero => exact fun hocc => hlw ((occursAt_zero_iff pat _).mp hocc)
          | succ q' =>
              intro hocc
              exact h2 q' (by omega) ((occursAt_succ_iff pat c rest q').mp hocc)
        · rintro ⟨h1, h2⟩
          cases i with
          | zero => exact absurd ((occursAt_zero_iff pat _).mp h1) hlw
          | succ i' =>
              refine ⟨i', (ih i' hrest).mpr
                ⟨(occursAt_succ_iff pat c rest i').mp h1, ?_⟩, by omega⟩
              intro q hq hocc
              exact h2 (q + 1) (by omega) ((occursAt_succ_iff pat c rest q).mpr hocc)

/-- `findBytePos` on an ASCII haystack returns `none` exactly when the
pattern occurs nowhere. -/
theorem findBytePos_ascii_none_iff (pat s : Str) (hpat : pat ≠ [])
    (hA : asciiStr s) :
    findBytePos pat s = none ↔ ∀ q, ¬ occursAt pat s q := by
  constructor
  · intro h q
    induction s generalizing q with
    | nil =>
        obtain ⟨a, as, rfl⟩ := List.exists_cons_of_ne_nil hpat
        simp [occursAt, leadsWith]
    | cons c rest ih =>
        have hrest : asciiStr rest := fun x hx => hA x (List.mem_cons_of_mem _ hx)
        rw [findBytePos_cons] at h
        by_cases hlw : leadsWith pat (c :: rest) = true
        · rw [if_pos hlw] at h
          cases h
        · rw [if_neg hlw, Option.map_eq_none'] at h
          cases q with
          | zero => exact fun hocc => hlw ((occursAt_zero_iff pat _).mp hocc)
          | succ q' =>
              intro hocc
              exact ih hrest h q' ((occursAt_succ_iff pat c rest q').mp hocc)
  · intro h
    cases hf : findBytePos pat s with
    | none => rfl
    | some i =>
        obtain ⟨h1, _⟩ := (findBytePos_ascii_iff pat s i hpat hA).mp hf
        exact absurd h1 (h i)

/-- On an ASCII string the byte slice succeeds exactly up to the length and
returns the character prefix. -/
theorem takeBytes_ascii (s : Str) (n : Nat) (hA : asciiStr s) :
    takeBytes s n = if n ≤ s.length then some (s.take n) else none := by
  induction s generalizing n with
  | nil =>
      cases n with
      | zero => rfl
      | succ n' => simp [takeBytes]
  | cons c rest ih =>
      have hc : utf8SizeC c = 1 :=
        utf8SizeC_eq_one c (hA c (List.mem_cons_self _ _))
      have hrest : asciiStr rest := fun x hx => hA x (List.mem_cons_of_mem _ hx)
      cases n with
      | zero => simp [takeBytes]
      | succ n' =>
          simp only [takeBytes, hc, if_pos (by omega : 1 ≤ n' + 1)]
          rw [show n' + 1 - 1 = n' from rfl, ih n' hrest]
          by_cases hn : n' ≤ rest.length
          · rw [if_pos hn, if_pos (by simpa using Nat.succ_le_succ hn)]
            rfl
          · rw [if_neg hn, if_neg (by simp; omega)]
            rfl

/-- The lowercase image of the `[REDACTED]` literal. -/
def lowRed : Str := "[redacted]".toList

theorem map_lowC_redactedLit : redactedLit.map lowC = lowRed := by decide

theorem noOcc_of_bounded (pat b : Str) (hpat : pat ≠ [])
    (h : ∀ q < b.length + 1, leadsWith pat (b.drop q) = false) :
    ∀ q, ¬ occursAt pat b q := by
  intro q hq
  by_cases hql : q < b.length + 1
  · rw [occursAt, h q hql] at hq
    cases hq
  · have hd : b.drop q = [] := List.drop_eq_nil_of_le (by omega)
    rw [occursAt, hd] at hq
    obtain ⟨a, as, rfl⟩ := List.exists_cons_of_ne_nil hpat
    simp [leadsWith] at hq

theorem sum_ascii_sizes (s : Str) (hA : asciiStr s) : utf8Len s = s.length := by
  induction s with
  | nil => rfl
  | cons c rest ih =>
      have hc := utf8SizeC_eq_one c (hA c (List.mem_cons_self _ _))
      have hrest : asciiStr rest := fun x hx => hA x (List.mem_cons_of_mem _ hx)
      simp only [utf8Len, List.map_cons, List.sum_cons, hc] at *
      rw [ih hrest, List.length_cons]
      omega

/-- C3 counterexample: for the line `token=a api_key=b` (containing both
markers) the code yields `token=[REDACTED]`, not the claimed truncation at
the `api_key=` marker with the earlier `token=` text kept intact. -/
theorem redact_both_markers_counterexample :
    redactLine ("token=a api_key=b".toList) = some ("token=[REDACTED]".toList) ∧
      redactLine ("token=a api_key=b".toList) ≠
        some ("token=a api_key=[REDACTED]".toList) := by
  refine ⟨by decide, by decide⟩

/-- C3 (amended): on an ASCII line whose first `token=` occurrence precedes
its first `api_key=` occurrence (and which contains no `password=` or
`secret=`), redaction first truncates at `api_key=` and the later `token=`
pass then truncates the already-redacted line again at the `token=` marker,
so the result is the prefix up to `token=` followed by `[REDACTED]`. -/
theorem redact_both_markers (l : Str) (i j : Nat)
    (hA : asciiStr l)
    (ht : findBytePos ("token=".toList) (rustToLowercase l) = some i)
    (ha : findBytePos ("api_key=".toList) (rustToLowercase l) = some j)
    (hij : i < j)
    (hp : findBytePos ("password=".toList) (rustToLowercase l) = none)
    (hs : findBytePos ("secret=".toList) (rustToLowercase l) = none) :
    redactLine l = some (l.take (i + 6) ++ redactedLit) := by
  have hlow : rustToLowercase l = l.map lowC := rustToLowercase_ascii l hA
  have hlowA : asciiStr (l.map lowC) := asciiStr_map_lowC l hA
  have hlen : (l.map lowC).length = l.length := List.length_map l lowC
  rw [hlow] at ht ha hp hs
  obtain ⟨hocc_a, hmin_a⟩ :=
    (findBytePos_ascii_iff _ _ j (by decide) hlowA).mp ha
  obtain ⟨hocc_t, hmin_t⟩ :=
    (findBytePos_ascii_iff _ _ i (by decide) hlowA).mp ht
  have hnp := (findBytePos_ascii_none_iff _ _ (by decide) hlowA).mp hp
  have hns := (findBytePos_ascii_none_iff _ _ (by decide) hlowA).mp hs
  have hj8 : j + 8 ≤ l.length := by
    have hl := leadsWith_length _ _ hocc_a
    rw [List.length_drop, hlen] at hl
    have h8 : ("api_key=".toList).length = 8 := by decide
    omega
  have hi6 : i + 6 ≤ l.length := by omega
  -- pass 1: truncate at the api_key= marker
  have htake1 : takeBytes l (j + utf8Len ("api_key=".toList)) = some (l.take (j + 8)) := by
    have hu : utf8Len ("api_key=".toList) = 8 := by decide
    rw [hu, takeBytes_ascii l _ hA, if_pos hj8]
  have e1 : redactStep l ("api_key=".toList) = some (l.take (j + 8) ++ redactedLit) := by
    simp only [redactStep, hlow, ha, htake1]
  have hA1 : asciiStr (l.take (j + 8) ++ redactedLit) :=
    asciiStr_append _ _ (asciiStr_take _ _ hA) (by decide)
  have hlow1 : rustToLowercase (l.take (j + 8) ++ redactedLit) =
      (l.map lowC).take (j + 8) ++ lowRed := by
    rw [rustToLowercase_ascii _ hA1, List.map_append, List.map_take,
      map_lowC_redactedLit]
  have hAlen : ((l.map lowC).take (j + 8)).length = j + 8 := by
    rw [List.length_take, hlen]
    omega
  -- pass 2: the token= marker is found again, before the first cut
  have hocc2 : occursAt ("token=".toList) ((l.map lowC).take (j + 8) ++ lowRed) i := by
    have h6 : ("token=".toList).length = 6 := by decide
    exact occursAt_take_append _ _ _ _ _ (by decide) hocc_t (by omega)
  have hmin2 : ∀ q < i, ¬ occursAt ("token=".toList)
      ((l.map lowC).take (j + 8) ++ lowRed) q := by
    intro q hq hocc
    have h6 : ("token=".toList).length = 6 := by decide
    rcases occursAt_append_cases _ _ _ _ hocc with
      ⟨hfit, hin⟩ | ⟨hge, _⟩ | ⟨h1, h2, _⟩
    · exact hmin_t q hq (occursAt_of_take _ _ _ _ hin)
    · rw [hAlen] at hge
      omega
    · rw [hAlen] at h2
      omega
  have hA1low : asciiStr ((l.map lowC).take (j + 8) ++ lowRed) :=
    asciiStr_append _ _ (asciiStr_take _ _ hlowA) (by decide)
  have hfind2 : findBytePos ("token=".toList)
      (rustToLowercase (l.take (j + 8) ++ redactedLit)) = some i := by
    rw [hlow1]
    exact (findBytePos_ascii_iff _ _ i (by decide) hA1low).mpr ⟨hocc2, hmin2⟩
  have hout1len : (l.take (j + 8) ++ redactedLit).length = j + 8 + 10 := by
    rw [List.length_append, List.length_take]
    have : redactedLit.length = 10 := by decide
    omega
  have htake2 : takeBytes (l.take (j + 8) ++ redactedLit)
      (i + utf8Len ("token=".toList)) = some (l.take (i + 6)) := by
    have hu : utf8Len ("token=".toList) = 6 := by decide
    rw [hu, takeBytes_ascii _ _ hA1, if_pos (by rw [hout1len]; omega)]
    rw [List.take_append_of_le_length (by rw [List.length_take]; omega)]
    rw [List.take_take, min_eq_left (by omega)]
  have e2 : redactStep (l.take (j + 8) ++ redactedLit) ("token=".toList) =
      some (l.take (i + 6) ++ redactedLit) := by
    simp only [redactStep, hfind2, htake2]
  have hA2 : asciiStr (l.take (i + 6) ++ redactedLit) :=
    asciiStr_append _ _ (asciiStr_take _ _ hA) (by decide)
  have hlow2 : rustToLowercase (l.take (i + 6) ++ redactedLit) =
      (l.map lowC).take (i + 6) ++ lowRed := by
    rw [rustToLowercase_ascii _ hA2, List.map_append, List.map_take,
      map_lowC_redactedLit]
  have hA2low : asciiStr ((l.map lowC).take (i + 6) ++ lowRed) :=
    asciiStr_append _ _ (asciiStr_take _ _ hlowA) (by decide)
  have hA2len : ((l.map lowC).take (i + 6)).length = i + 6 := by
    rw [List.length_take, hlen]
    omega
  -- passes 3 and 4: password= and secret= occur nowhere in the result
  have noOccPas : ∀ q, ¬ occursAt ("password=".toList) lowRed q :=
    noOcc_of_bounded _ _ (by decide) (by decide)
  have noOccSec : ∀ q, ¬ occursAt ("secret=".toList) lowRed q :=
    noOcc_of_bounded _ _ (by decide) (by decide)
  have hnf3 : findBytePos ("password=".toList)
      (rustToLowercase (l.take (i + 6) ++ redactedLit)) = none := by
    rw [hlow2]
    refine (findBytePos_ascii_none_iff _ _ (by decide) hA2low).mpr ?_
    intro q hocc
    have h9 : ("password=".toList).length = 9 := by decide
    rcases occursAt_append_cases _ _ _ _ hocc with
      ⟨hfit, hin⟩ | ⟨hge, hin⟩ | ⟨h1, h2, hsp⟩
    · exact hnp q (occursAt_of_take _ _ _ _ hin)
    · exact noOccPas _ hin
    · rw [hA2len] at h1 h2 hsp
      have hb : ∀ d < 9, 0 < d →
          leadsWith (("password=".toList).drop d) lowRed = false := by decide
      have hd := hb (i + 6 - q) (by omega) (by omega)
      rw [hd] at hsp
      cases hsp
  have hnf4 : findBytePos ("secret=".toList)
      (rustToLowercase (l.take (i + 6) ++ redactedLit)) = none := by
    rw [hlow2]
    refine (findBytePos_ascii_none_iff _ _ (by decide) hA2low).mpr ?_
    intro q hocc
    have h7 : ("secret=".toList).length = 7 := by decide
    rcases occursAt_append_cases _ _ _ _ hocc with
      ⟨hfit, hin⟩ | ⟨hge, hin⟩ | ⟨h1, h2, hsp⟩
    · exact hns q (occursAt_of_take _ _ _ _ hin)
    · exact noOccSec _ hin
    · rw [hA2len] at h1 h2 hsp
      have hb : ∀ d < 7, 0 < d →
          leadsWith (("secret=".toList).drop d) lowRed = false := by decide
      have hd := hb (i + 6 - q) (by omega) (by omega)
      rw [hd] at hsp
      cases hsp
  have e3 : redactStep (l.take (i + 6) ++ redactedLit) ("password=".toList) =
      some (l.take (i + 6) ++ redactedLit) := by
    simp only [redactStep, hnf3]
  have e4 : redactStep (l.take (i + 6) ++ redactedLit) ("secret=".toList) =
      some (l.take (i + 6) ++ redactedLit) := by
    simp only [redactStep, hnf4]
  show suspects.foldlM redactStep l = _
  rw [show suspects = ["api_key=".toList, "token=".toList, "password=".toList,
    "secret=".toList] from rfl]
  rw [List.foldlM_cons, e1]
  show (redactStep (l.take (j + 8) ++ redactedLit) ("token=".toList)).bind _ = _
  rw [e2]
  show (redactStep (l.take (i + 6) ++ redactedLit) ("password=".toList)).bind _ = _
  rw [e3]
  show (redactStep (l.take (i + 6) ++ redactedLit) ("secret=".toList)).bind _ = _
  rw [e4]
  rfl

/-- Witness for C3 (amended) at the line `token=a api_key=b`. -/
theorem redact_both_markers_witness :
    redactLine ("token=a api_key=b".toList) =
      some (("token=a api_key=b".toList).take (0 + 6) ++ redactedLit) :=
  redact_both_markers ("token=a api_key=b".toList) 0 8 (by decide) (by decide)
    (by decide) (by decide) (by decide) (by decide)

/-- C10 counterexample: on a line of four `İ` (U+0130) characters followed by
`token=x`, lowercasing grows the byte length, the byte index found in the
lowercased copy exceeds the original string, and the byte slice panics
(modelled as `none`). -/
theorem redactLine_panics_on_dotted_I :
    redactLine (List.replicate 4 (Char.ofNat 0x130) ++ "token=x".toList) = none := by
  decide

/-- One redaction pass is total on ASCII strings and preserves ASCII-ness. -/
theorem redactStep_ascii_total (out suspect : Str) (hA : asciiStr out)
    (hpat : suspect ≠ []) (hsA : asciiStr suspect) :
    ∃ out', redactStep out suspect = some out' ∧ asciiStr out' := by
  have hlow : rustToLowercase out = out.map lowC := rustToLowercase_ascii out hA
  have hlowA : asciiStr (out.map lowC) := asciiStr_map_lowC out hA
  cases hf : findBytePos suspect (rustToLowercase out) with
  | none => exact ⟨out, by simp only [redactStep, hf], hA⟩
  | some idx =>
      rw [hlow] at hf
      obtain ⟨hocc, _⟩ := (findBytePos_ascii_iff _ _ idx hpat hlowA).mp hf
      have hlenp : 1 ≤ suspect.length := List.length_pos.mpr hpat
      have hl := leadsWith_length _ _ hocc
      rw [List.length_drop, List.length_map] at hl
      have hfit : idx + suspect.length ≤ out.length := by omega
      have hu : utf8Len suspect = suspect.length := sum_ascii_sizes suspect hsA
      have htb : takeBytes out (idx + utf8Len suspect) =
          some (out.take (idx + suspect.length)) := by
        rw [hu, takeBytes_ascii out _ hA, if_pos hfit]
      refine ⟨out.take (idx + suspect.length) ++ redactedLit, ?_, ?_⟩
      · simp only [redactStep, hlow, hf, htb]
      · exact asciiStr_append _ _ (asciiStr_take _ _ hA) (by decide)

/-- C10 (amended): `redact_line` is total on lines whose characters are all
ASCII (where lowercasing preserves byte positions), and `filter_sensitive`
is total on events whose `last_lines` are all ASCII. -/
theorem redact_total_on_ascii (e : SessionEvent) (l : Str)
    (hA : asciiStr l)
    (hAe : ∀ li ∈ e.last_lines, asciiStr li) :
    (redactLine l).isSome = true ∧ (filter_sensitive e).isSome = true := by
  have hline : ∀ s : Str, asciiStr s → ∃ r, redactLine s = some r := by
    intro s hs
    obtain ⟨o1, e1, a1⟩ := redactStep_ascii_total s ("api_key=".toList) hs
      (by decide) (by decide)
    obtain ⟨o2, e2, a2⟩ := redactStep_ascii_total o1 ("token=".toList) a1
      (by decide) (by decide)
    obtain ⟨o3, e3, a3⟩ := redactStep_ascii_total o2 ("password=".toList) a2
      (by decide) (by decide)
    obtain ⟨o4, e4, a4⟩ := redactStep_ascii_total o3 ("secret=".toList) a3
      (by decide) (by decide)
    refine ⟨o4, ?_⟩
    show suspects.foldlM redactStep s = _
    rw [show suspects = ["api_key=".toList, "token=".toList, "password=".toList,
      "secret=".toList] from rfl]
    rw [List.foldlM_cons, e1]
    show (redactStep o1 ("token=".toList)).bind _ = _
    rw [e2]
    show (redactStep o2 ("password=".toList)).bind _ = _
    rw [e3]
    show (redactStep o3 ("secret=".toList)).bind _ = _
    rw [e4]
    rfl
  constructor
  · obtain ⟨r, hr⟩ := hline l hA
    rw [hr]
    rfl
  · have hmap : ∀ lines : List Str, (∀ li ∈ lines, asciiStr li) →
        ∃ rs, lines.mapM redactLine = some rs := by
      intro lines hlines
      induction lines with
      | nil => exact ⟨[], rfl⟩
      | cons a rest ih =>
          obtain ⟨r, hr⟩ := hline a (hlines a (List.mem_cons_self _ _))
          obtain ⟨rs, hrs⟩ := ih fun x hx => hlines x (List.mem_cons_of_mem _ hx)
          refine ⟨r :: rs, ?_⟩
          rw [List.mapM_cons, hr, hrs]
          rfl
    obtain ⟨rs, hrs⟩ := hmap e.last_lines hAe
    unfold filter_sensitive
    rw [hrs]
    rfl

/-- Witness for C10 (amended) on a concrete ASCII line and event. -/
theorem redact_total_on_ascii_witness :
    (redactLine ("token=abc".toList)).isSome = true ∧
      (filter_sensitive (evA .Running 5)).isSome = true :=
  redact_total_on_ascii (evA .Running 5) ("token=abc".toList) (by decide) (by decide)

/-! ## Embedding of `src/sync.rs`: retry policy -/

/-- `u64::MAX`, the saturation bound of Rust's saturating arithmetic. -/
def U64MAX : Nat := 2 ^ 64 - 1

/-- `RetryPolicy` from `src/sync.rs`. -/
structure RetryPolicy where
  max_attempts : Nat
  base_delay_ms : Nat
  max_delay_ms : Nat
  deriving DecidableEq, Repr

/-- `RetryPolicy::delay_for_attempt` from `src/sync.rs`:
`2u64.saturating_pow(attempt.saturating_sub(1))`, `saturating_mul`, then
`min(max_delay_ms)`; the resulting `Duration` is kept as milliseconds. -/
def RetryPolicy.delay_for_attempt (p : RetryPolicy) (attempt : Nat) : Nat :=
  let exp := min (2 ^ (attempt - 1)) U64MAX
  let raw := min (p.base_delay_ms * exp) U64MAX
  min raw p.max_delay_ms

/-- C7 counterexample: for a policy with `base_delay_ms = 3000` and
`max_delay_ms = 2000`, `delay_for_attempt(1)` is 2000, not the claimed
`base_delay_ms`. -/
theorem delay_for_attempt_one_ne_base :
    (RetryPolicy.mk 5 3000 2000).delay_for_attempt 1 = 2000 ∧ (2000 : Nat) ≠ 3000 := by
  refine ⟨by decide, by decide⟩

/-- C7 (amended): for every policy (u64 fields) and 1-based attempt `n`,
`delay_for_attempt n = min (base_delay_ms * 2 ^ (n - 1)) max_delay_ms`; the
schedule is non-decreasing, `delay_for_attempt 1 = min base_delay_ms
max_delay_ms` (which is `base_delay_ms` whenever `base ≤ max`), and no
returned delay exceeds `max_delay_ms`. -/
theorem delay_for_attempt_schedule (p : RetryPolicy) (n : Nat)
    (hbase : p.base_delay_ms < 2 ^ 64) (hmax : p.max_delay_ms < 2 ^ 64)
    (hn : 1 ≤ n) (hn32 : n < 2 ^ 32) :
    p.delay_for_attempt n = min (p.base_delay_ms * 2 ^ (n - 1)) p.max_delay_ms ∧
    p.delay_for_attempt n ≤ p.delay_for_attempt (n + 1) ∧
    p.delay_for_attempt 1 = min p.base_delay_ms p.max_delay_ms ∧
    p.delay_for_attempt n ≤ p.max_delay_ms := by
  have hmaxM : p.max_delay_ms ≤ U64MAX := by
    unfold U64MAX
    omega
  have formula : ∀ m : Nat, p.delay_for_attempt m =
      min (p.base_delay_ms * 2 ^ (m - 1)) p.max_delay_ms := by
    intro m
    show min (min (p.base_delay_ms * min (2 ^ (m - 1)) U64MAX) U64MAX)
        p.max_delay_ms = _
    by_cases h : 2 ^ (m - 1) ≤ U64MAX
    · rw [min_eq_left h]
      omega
    · push_neg at h
      rw [min_eq_right (le_of_lt h)]
      rcases Nat.eq_zero_or_pos p.base_delay_ms with hb | hb
      · simp [hb]
      · have h1 : U64MAX ≤ p.base_delay_ms * U64MAX := Nat.le_mul_of_pos_left _ hb
        have h2 : 2 ^ (m - 1) ≤ p.base_delay_ms * 2 ^ (m - 1) :=
          Nat.le_mul_of_pos_left _ hb
        omega
  refine ⟨formula n, ?_, ?_, ?_⟩
  · rw [formula n, formula (n + 1)]
    have hpow : 2 ^ (n - 1) ≤ 2 ^ (n + 1 - 1) :=
      Nat.pow_le_pow_right (by omega) (by omega)
    have hmul : p.base_delay_ms * 2 ^ (n - 1) ≤ p.base_delay_ms * 2 ^ (n + 1 - 1) :=
      Nat.mul_le_mul_left _ hpow
    omega
  · rw [formula 1]
    norm_num
  · rw [formula n]
    exact min_le_right _ _

/-- Witness for C7 (amended) at the default policy and attempt 2. -/
theorem delay_for_attempt_schedule_witness :
    (RetryPolicy.mk 5 200 2000).delay_for_attempt 2 =
      min ((200 : Nat) * 2 ^ (2 - 1)) 2000 ∧
    (RetryPolicy.mk 5 200 2000).delay_for_attempt 2 ≤
      (RetryPolicy.mk 5 200 2000).delay_for_attempt 3 ∧
    (RetryPolicy.mk 5 200 2000).delay_for_attempt 1 = min (200 : Nat) 2000 ∧
    (RetryPolicy.mk 5 200 2000).delay_for_attempt 2 ≤ 2000 :=
  delay_for_attempt_schedule (RetryPolicy.mk 5 200 2000) 2
    (by decide) (by decide) (by decide) (by decide)

/-! ## Embedding of `src/sync.rs`: wire types and encoding

The wire messages are serialized by `serde_json::to_vec` (canonical JSON,
fields in declaration order, strings escaped per serde_json's table) and
parsed by `serde_json::from_slice`.  The encoder below reproduces
`to_vec`'s exact output bytes; the parser models `from_slice` on that
canonical output (it accepts exactly the canonical form and requires the
input to be fully consumed, as `from_slice` rejects trailing data). -/

/-- `TransportProtocol` from `src/sync.rs`. -/
inductive TransportProtocol
  | Http
  | Https
  | Quic
  deriving DecidableEq, Repr

/-- `SyncEnvelope` from `src/sync.rs`. -/
structure SyncEnvelope where
  peer : Str
  nonce : Nat
  protocol : TransportProtocol
  payload : List SessionEvent
  deriving DecidableEq, Repr

/-- `PullRequest` from `src/sync.rs`. -/
structure PullRequest where
  auth_key : Str
  deriving DecidableEq, Repr

/-- Wire bytes. -/
abbrev Bytes := List Nat

/-- UTF-8 encoding of one scalar value. -/
def utf8Bytes (c : Char) : Bytes :=
  let n := c.toNat
  if n < 0x80 then [n]
  else if n < 0x800 then [0xC0 + n / 64, 0x80 + n % 64]
  else if n < 0x10000 then
    [0xE0 + n / 4096, 0x80 + n / 64 % 64, 0x80 + n % 64]
  else
    [0xF0 + n / 262144, 0x80 + n / 4096 % 64, 0x80 + n / 64 % 64, 0x80 + n % 64]

/-- Lowercase hex digit byte, as serde_json's `\u00XX` escapes use. -/
def hexDigit (n : Nat) : Nat := if n < 10 then 0x30 + n else 0x57 + n

/-- serde_json's escape of one character inside a JSON string: `"` and `\`
are backslash-escaped, the five control shorthands `\b \t \n \f \r` are
used, other control characters become `\u00XX`, and everything else is raw
UTF-8. -/
def escChar (c : Char) : Bytes :=
  if c.toNat = 0x22 then [0x5C, 0x22]
  else if c.toNat = 0x5C then [0x5C, 0x5C]
  else if c.toNat = 0x08 then [0x5C, 0x62]
  else if c.toNat = 0x09 then [0x5C, 0x74]
  else if c.toNat = 0x0A then [0x5C, 0x6E]
  else if c.toNat = 0x0C then [0x5C, 0x66]
  else if c.toNat = 0x0D then [0x5C, 0x72]
  else if c.toNat < 0x20 then
    [0x5C, 0x75, 0x30, 0x30, hexDigit (c.toNat / 16), hexDigit (c.toNat % 16)]
  else utf8Bytes c

/-- A JSON string literal: quote, escaped body, quote. -/
def encJStr (s : Str) : Bytes := 0x22 :: (s.map escChar).flatten ++ [0x22]

/-- Most-significant-first decimal digit bytes of a positive number
(`fuel`-structured recursion, `fuel ≥ n`). -/
def digitsFuel : Nat → Nat → Bytes
  | 0, _ => []
  | fuel + 1, n => if n = 0 then [] else digitsFuel fuel (n / 10) ++ [0x30 + n % 10]

/-- Decimal serialization of a `u64`. -/
def encNat (n : Nat) : Bytes := if n = 0 then [0x30] else digitsFuel n n

/-- `"key":` header bytes (keys are plain ASCII identifiers). -/
def kq (k : Str) : Bytes := 0x22 :: k.map Char.toNat ++ [0x22, 0x3A]

/-- Comma-separated concatenation of already-encoded items. -/
def sepByComma : List Bytes → Bytes
  | [] => []
  | [x] => x
  | x :: y :: rest => x ++ 0x2C :: sepByComma (y :: rest)

/-- A JSON array. -/
def encArr (xs : List Bytes) : Bytes := 0x5B :: sepByComma xs ++ [0x5D]

/-- serde serialization of `AgentKind` (unit variant name as a string). -/
def encAgent : AgentKind → Bytes
  | .Claude => encJStr ("Claude".toList)
  | .Codex => encJStr ("Codex".toList)
  | .Gemini => encJStr ("Gemini".toList)
  | .Unknown => encJStr ("Unknown".toList)

/-- serde serialization of `SessionStatus`. -/
def encStatus : SessionStatus → Bytes
  | .Running => encJStr ("Running".toList)
  | .WaitingInput => encJStr ("WaitingInput".toList)
  | .Success => encJStr ("Success".toList)
  | .Failed => encJStr ("Failed".toList)
  | .Stopped => encJStr ("Stopped".toList)

/-- serde serialization of `TransportProtocol`. -/
def encProtocol : TransportProtocol → Bytes
  | .Http => encJStr ("Http".toList)
  | .Https => encJStr ("Https".toList)
  | .Quic => encJStr ("Quic".toList)

/-- serde serialization of `Option<String>`. -/
def encOptStr : Option Str → Bytes
  | none => [0x6E, 0x75, 0x6C, 0x6C]
  | some s => encJStr s

/-- `serde_json::to_vec` of a `SessionEvent` (fields in declaration order). -/
def encEvent (e : SessionEvent) : Bytes :=
  0x7B :: kq ("id".toList) ++ encJStr e.id
  ++ 0x2C :: kq ("agent".toList) ++ encAgent e.agent
  ++ 0x2C :: kq ("title".toList) ++ encJStr e.title
  ++ 0x2C :: kq ("working_dir".toList) ++ encJStr e.working_dir
  ++ 0x2C :: kq ("user".toList) ++ encJStr e.user
  ++ 0x2C :: kq ("status".toList) ++ encStatus e.status
  ++ 0x2C :: kq ("pending_action".toList) ++ encOptStr e.pending_action
  ++ 0x2C :: kq ("started_at_unix_ms".toList) ++ encNat e.started_at_unix_ms
  ++ 0x2C :: kq ("updated_at_unix_ms".toList) ++ encNat e.updated_at_unix_ms
  ++ 0x2C :: kq ("last_lines".toList) ++ encArr (e.last_lines.map encJStr)
  ++ [0x7D]

/-- `serde_json::to_vec` of a `SyncEnvelope`. -/
def encEnvelope (env : SyncEnvelope) : Bytes :=
  0x7B :: kq ("peer".toList) ++ encJStr env.peer
  ++ 0x2C :: kq ("nonce".toList) ++ encNat env.nonce
  ++ 0x2C :: kq ("protocol".toList) ++ encProtocol env.protocol
  ++ 0x2C :: kq ("payload".toList) ++ encArr (env.payload.map encEvent)
  ++ [0x7D]

/-- `serde_json::to_vec` of a `PullRequest`. -/
def encPullRequest (r : PullRequest) : Bytes :=
  0x7B :: kq ("auth_key".toList) ++ encJStr r.auth_key ++ [0x7D]

/-- `encrypt_like_transport` from `src/sync.rs`: byte-wise XOR with `0xA5`. -/
def encrypt_like_transport (input : Bytes) : Bytes := input.map (· ^^^ 0xA5)

/-- `decrypt_like_transport` from `src/sync.rs`. -/
def decrypt_like_transport (input : Bytes) : Bytes := input.map (· ^^^ 0xA5)

/-- `SyncClient::encode_envelope`: serialize, then obfuscate. -/
def encode_envelope (env : SyncEnvelope) : Bytes :=
  encrypt_like_transport (encEnvelope env)

/-! ### The canonical parser (modelling `serde_json::from_slice` on the
encoder's output) -/

/-- Hexadecimal digit value. -/
def hexVal (b : Nat) : Option Nat :=
  if 0x30 ≤ b ∧ b ≤ 0x39 then some (b - 0x30)
  else if 0x61 ≤ b ∧ b ≤ 0x66 then some (b - 0x57)
  else if 0x41 ≤ b ∧ b ≤ 0x46 then some (b - 0x37)
  else none

/-- Consume an exact literal byte sequence. -/
def expectB : Bytes → Bytes → Option Bytes
  | [], s => some s
  | _ :: _, [] => none
  | b :: bs, c :: cs => if b = c then expectB bs cs else none

/-- Decode one escape sequence (the bytes after a backslash). -/
def parseEscape : Bytes → Option (Char × Bytes)
  | [] => none
  | e :: rest2 =>
      if e = 0x22 then some (Char.ofNat 0x22, rest2)
      else if e = 0x5C then some (Char.ofNat 0x5C, rest2)
      else if e = 0x2F then some (Char.ofNat 0x2F, rest2)
      else if e = 0x62 then some (Char.ofNat 0x08, rest2)
      else if e = 0x74 then some (Char.ofNat 0x09, rest2)
      else if e = 0x6E then some (Char.ofNat 0x0A, rest2)
      else if e = 0x66 then some (Char.ofNat 0x0C, rest2)
      else if e = 0x72 then some (Char.ofNat 0x0D, rest2)
      else if e = 0x75 then
        match rest2 with
        | h1 :: h2 :: h3 :: h4 :: rest3 =>
          match hexVal h1, hexVal h2, hexVal h3, hexVal h4 with
          | some v1, some v2, some v3, some v4 =>
              some (Char.ofNat (v1 * 4096 + v2 * 256 + v3 * 16 + v4), rest3)
          | _, _, _, _ => none
        | _ => none
      else none

/-- Decode one UTF-8 scalar whose first byte is `b`. -/
def parseUtf8 (b : Nat) (rest : Bytes) : Option (Char × Bytes) :=
  if b < 0x80 then some (Char.ofNat b, rest)
  else if b < 0xC0 then none
  else if b < 0xE0 then
    match rest with
    | b2 :: rest2 =>
        if 0x80 ≤ b2 ∧ b2 < 0xC0 then
          some (Char.ofNat ((b - 0xC0) * 64 + (b2 - 0x80)), rest2)
        else none
    | [] => none
  else if b < 0xF0 then
    match rest with
    | b2 :: b3 :: rest2 =>
        if (0x80 ≤ b2 ∧ b2 < 0xC0) ∧ (0x80 ≤ b3 ∧ b3 < 0xC0) then
          some (Char.ofNat ((b - 0xE0) * 4096 + (b2 - 0x80) * 64 + (b3 - 0x80)),
            rest2)
        else none
    | _ => none
  else if b < 0xF8 then
    match rest with
    | b2 :: b3 :: b4 :: rest2 =>
        if (0x80 ≤ b2 ∧ b2 < 0xC0) ∧ (0x80 ≤ b3 ∧ b3 < 0xC0) ∧
            (0x80 ≤ b4 ∧ b4 < 0xC0) then
          some (Char.ofNat ((b - 0xF0) * 262144 + (b2 - 0x80) * 4096 +
            (b3 - 0x80) * 64 + (b4 - 0x80)), rest2)
        else none
    | _ => none
  else none

/-- Parse the body of a JSON string (after the opening quote) up to the
closing quote, decoding escapes and UTF-8; fuel-bounded (one unit per
decoded character, so the byte length of the input always suffices). -/
def parseJStrBodyF : Nat → Bytes → Option (Str × Bytes)
  | 0, _ => none
  | _ + 1, [] => none
  | fuel + 1, b :: rest =>
      if b = 0x22 then some ([], rest)
      else if b = 0x5C then
        match parseEscape rest with
        | none => none
        | some cr => (parseJStrBodyF fuel cr.2).map fun p => (cr.1 :: p.1, p.2)
      else
        match parseUtf8 b rest with
        | none => none
        | some cr => (parseJStrBodyF fuel cr.2).map fun p => (cr.1 :: p.1, p.2)

/-- Parse a JSON string body, with fuel the input length. -/
def parseJStrBody (s : Bytes) : Option (Str × Bytes) := parseJStrBodyF s.length s

/-- Parse a JSON string literal. -/
def parseJStr : Bytes → Option (Str × Bytes)
  | b :: rest => if b = 0x22 then parseJStrBody rest else none
  | [] => none

/-- Decimal digit test. -/
def isDigitB (b : Nat) : Bool := decide (0x30 ≤ b ∧ b ≤ 0x39)

/-- Consume a run of decimal digits, accumulating the value. -/
def parseDigits : Bytes → Nat → Nat × Bytes
  | [], acc => (acc, [])
  | b :: rest, acc =>
      if isDigitB b then parseDigits rest (acc * 10 + (b - 0x30))
      else (acc, b :: rest)

/-- Parse a JSON non-negative integer. -/
def parseNat : Bytes → Option (Nat × Bytes)
  | [] => none
  | b :: rest =>
      if isDigitB b then some (parseDigits (b :: rest) 0) else none

/-- Parse an `AgentKind` variant string. -/
def parseAgent (s : Bytes) : Option (AgentKind × Bytes) :=
  (parseJStr s).bind fun p =>
    if p.1 = ("Claude".toList) then some (.Claude, p.2)
    else if p.1 = ("Codex".toList) then some (.Codex, p.2)
    else if p.1 = ("Gemini".toList) then some (.Gemini, p.2)
    else if p.1 = ("Unknown".toList) then some (.Unknown, p.2)
    else none

/-- Parse a `SessionStatus` variant string. -/
def parseStatus (s : Bytes) : Option (SessionStatus × Bytes) :=
  (parseJStr s).bind fun p =>
    if p.1 = ("Running".toList) then some (.Running, p.2)
    else if p.1 = ("WaitingInput".toList) then some (.WaitingInput, p.2)
    else if p.1 = ("Success".toList) then some (.Success, p.2)
    else if p.1 = ("Failed".toList) then some (.Failed, p.2)
    else if p.1 = ("Stopped".toList) then some (.Stopped, p.2)
    else none

/-- Parse a `TransportProtocol` variant string. -/
def parseProtocol (s : Bytes) : Option (TransportProtocol × Bytes) :=
  (parseJStr s).bind fun p =>
    if p.1 = ("Http".toList) then some (.Http, p.2)
    else if p.1 = ("Https".toList) then some (.Https, p.2)
    else if p.1 = ("Quic".toList) then some (.Quic, p.2)
    else none

/-- Parse `null` or a JSON string. -/
def parseOptStr (s : Bytes) : Option (Option Str × Bytes) :=
  match s with
  | [] => none
  | b :: rest =>
      if b = 0x6E then (expectB [0x75, 0x6C, 0x6C] rest).map fun r => (none, r)
      else (parseJStr (b :: rest)).map fun p => (some p.1, p.2)

/-- Parse the items of a non-empty JSON array (after `[`), fuel-bounded. -/
def parseItems (p : Bytes → Option (α × Bytes)) : Nat → Bytes → Option (List α × Bytes)
  | 0, _ => none
  | fuel + 1, s =>
      (p s).bind fun a =>
        match a.2 with
        | [] => none
        | b :: r2 =>
            if b = 0x2C then (parseItems p fuel r2).map fun q => (a.1 :: q.1, q.2)
            else if b = 0x5D then some ([a.1], r2)
            else none

/-- Parse a JSON array with element parser `p`. -/
def parseArr (p : Bytes → Option (α × Bytes)) (s : Bytes) :
    Option (List α × Bytes) :=
  match s with
  | [] => none
  | b :: rest =>
      if b = 0x5B then
        match rest with
        | [] => none
        | c :: rest2 =>
            if c = 0x5D then some ([], rest2)
            else parseItems p (c :: rest2).length (c :: rest2)
      else none

/-- Parse the canonical serialization of a `SessionEvent`. -/
def parseEvent (s : Bytes) : Option (SessionEvent × Bytes) :=
  match expectB (0x7B :: kq ("id".toList)) s with
  | none => none
  | some r0 =>
  match parseJStr r0 with
  | none => none
  | some pid =>
  match expectB (0x2C :: kq ("agent".toList)) pid.2 with
  | none => none
  | some r1 =>
  match parseAgent r1 with
  | none => none
  | some pa =>
  match expectB (0x2C :: kq ("title".toList)) pa.2 with
  | none => none
  | some r2 =>
  match parseJStr r2 with
  | none => none
  | some pt =>
  match expectB (0x2C :: kq ("working_dir".toList)) pt.2 with
  | none => none
  | some r3 =>
  match parseJStr r3 with
  | none => none
  | some pw =>
  match expectB (0x2C :: kq ("user".toList)) pw.2 with
  | none => none
  | some r4 =>
  match parseJStr r4 with
  | none => none
  | some pu =>
  match expectB (0x2C :: kq ("status".toList)) pu.2 with
  | none => none
  | some r5 =>
  match parseStatus r5 with
  | none => none
  | some ps =>
  match expectB (0x2C :: kq ("pending_action".toList)) ps.2 with
  | none => none
  | some r6 =>
  match parseOptStr r6 with
  | none => none
  | some pp =>
  match expectB (0x2C :: kq ("started_at_unix_ms".toList)) pp.2 with
  | none => none
  | some r7 =>
  match parseNat r7 with
  | none => none
  | some p7 =>
  match expectB (0x2C :: kq ("updated_at_unix_ms".toList)) p7.2 with
  | none => none
  | some r8 =>
  match parseNat r8 with
  | none => none
  | some p8 =>
  match expectB (0x2C :: kq ("last_lines".toList)) p8.2 with
  | none => none
  | some r9 =>
  match parseArr parseJStr r9 with
  | none => none
  | some pl =>
  match expectB [0x7D] pl.2 with
  | none => none
  | some rend =>
    some (SessionEvent.mk pid.1 pa.1 pt.1 pw.1 pu.1 ps.1 pp.1 p7.1 p8.1 pl.1, rend)

/-- Parse the canonical serialization of a `SyncEnvelope`. -/
def parseEnvelope (s : Bytes) : Option (SyncEnvelope × Bytes) :=
  match expectB (0x7B :: kq ("peer".toList)) s with
  | none => none
  | some r0 =>
  match parseJStr r0 with
  | none => none
  | some pp =>
  match expectB (0x2C :: kq ("nonce".toList)) pp.2 with
  | none => none
  | some r1 =>
  match parseNat r1 with
  | none => none
  | some pn =>
  match expectB (0x2C :: kq ("protocol".toList)) pn.2 with
  | none => none
  | some r2 =>
  match parseProtocol r2 with
  | none => none
  | some pr =>
  match expectB (0x2C :: kq ("payload".toList)) pr.2 with
  | none => none
  | some r3 =>
  match parseArr parseEvent r3 with
  | none => none
  | some pl =>
  match expectB [0x7D] pl.2 with
  | none => none
  | some rend => some (SyncEnvelope.mk pp.1 pn.1 pr.1 pl.1, rend)

/-- Parse the canonical serialization of a `PullRequest`. -/
def parsePullRequest (s : Bytes) : Option (PullRequest × Bytes) :=
  match expectB (0x7B :: kq ("auth_key".toList)) s with
  | none => none
  | some r0 =>
  match parseJStr r0 with
  | none => none
  | some pk =>
  match expectB [0x7D] pk.2 with
  | none => none
  | some rend => some (PullRequest.mk pk.1, rend)

/-- `serde_json::from_slice::<PullRequest>` on the server: full consumption
of the raw (unobfuscated) request bytes. -/
def decodePullRequest (bytes : Bytes) : Option PullRequest :=
  (parsePullRequest bytes).bind fun p => if p.2 = [] then some p.1 else none

/-- `SyncClient::decode_envelope`: un-XOR, then parse fully. -/
def decode_envelope (bytes : Bytes) : Option SyncEnvelope :=
  (parseEnvelope (decrypt_like_transport bytes)).bind fun p =>
    if p.2 = [] then some p.1 else none

/-- The bytes `pull_once` writes on the wire for its request
(`serde_json::to_vec(&PullRequest { auth_key })`, sent without the XOR
transform — `src/sync.rs` lines 119–123). -/
def pullRequestWireBytes (auth_key : Str) : Bytes :=
  encPullRequest (PullRequest.mk auth_key)

/-! ### Roundtrip lemmas: the canonical parser inverts the encoder -/

theorem expectB_append (lit rest : Bytes) : expectB lit (lit ++ rest) = some rest := by
  induction lit with
  | nil => rfl
  | cons b bs ih => simp [expectB, ih]

theorem expectB_cons_append (b : Nat) (lit rest : Bytes) :
    expectB (b :: lit) (b :: (lit ++ rest)) = some rest := by
  simp [expectB, expectB_append]

theorem parseDigits_stop (rest : Bytes) (acc : Nat)
    (h : ∀ b, rest.head? = some b → isDigitB b = false) :
    parseDigits rest acc = (acc, rest) := by
  cases rest with
  | nil => rfl
  | cons b r => simp [parseDigits, h b rfl]

theorem parseDigits_append (ds rest : Bytes) (acc : Nat)
    (hds : ∀ b ∈ ds, isDigitB b = true) :
    parseDigits (ds ++ rest) acc =
      parseDigits rest (ds.foldl (fun a b => a * 10 + (b - 0x30)) acc) := by
  induction ds generalizing acc with
  | nil => rfl
  | cons d ds' ih =>
      have hd := hds d (List.mem_cons_self _ _)
      simp only [List.cons_append, parseDigits, hd, if_true, List.foldl_cons]
      exact ih _ fun b hb => hds b (List.mem_cons_of_mem _ hb)

theorem digitsFuel_zero (fuel : Nat) : digitsFuel fuel 0 = [] := by
  cases fuel with
  | zero => rfl
  | succ f => simp [digitsFuel]

theorem digitsFuel_all_digits (fuel n : Nat) :
    ∀ b ∈ digitsFuel fuel n, isDigitB b = true := by
  induction fuel generalizing n with
  | zero => intro b hb; cases hb
  | succ f ih =>
      intro b hb
      by_cases hn : n = 0
      · simp [digitsFuel, hn] at hb
      · simp only [digitsFuel, hn, if_false] at hb
        rcases List.mem_append.mp hb with h | h
        · exact ih _ b h
        · have : b = 0x30 + n % 10 := by simpa using h
          subst this
          have := Nat.mod_lt n (show 0 < 10 by omega)
          simp [isDigitB]
          omega

theorem digitsFuel_foldl (fuel n acc : Nat) (hn : 0 < n) (hf : n ≤ fuel) :
    ∃ p, 0 < p ∧
      (digitsFuel fuel n).foldl (fun a b => a * 10 + (b - 0x30)) acc =
        acc * p + n := by
  induction fuel generalizing n acc with
  | zero => omega
  | succ f ih =>
      have hne : n ≠ 0 := by omega
      simp only [digitsFuel, hne, if_false]
      by_cases h10 : n / 10 = 0
      · have hlt : n < 10 := by omega
        refine ⟨10, by omega, ?_⟩
        rw [h10, digitsFuel_zero, List.nil_append, List.foldl_cons, List.foldl_nil]
        omega
      · have hpos : 0 < n / 10 := Nat.pos_of_ne_zero h10
        have hlt : n / 10 < n := Nat.div_lt_self hn (by omega)
        obtain ⟨p, hp, hfold⟩ := ih (n / 10) acc hpos (by omega)
        refine ⟨p * 10, by omega, ?_⟩
        have hsub : 0x30 + n % 10 - 0x30 = n % 10 := by omega
        rw [List.foldl_append, hfold, List.foldl_cons, List.foldl_nil, hsub,
          Nat.add_mul, ← Nat.mul_assoc]
        omega

theorem digitsFuel_ne_nil (fuel n : Nat) (hn : 0 < n) (hf : n ≤ fuel) :
    digitsFuel fuel n ≠ [] := by
  cases fuel with
  | zero => omega
  | succ f =>
      have hne : n ≠ 0 := by omega
      simp [digitsFuel, hne]

/-- Parsing the decimal serialization of `n` recovers `n`, when the
following byte is not a digit. -/
theorem parseNat_enc (n : Nat) (rest : Bytes)
    (hnd : ∀ b, rest.head? = some b → isDigitB b = false) :
    parseNat (encNat n ++ rest) = some (n, rest) := by
  by_cases hn : n = 0
  · subst hn
    have h1 : encNat 0 ++ rest = 0x30 :: rest := by simp [encNat]
    have h2 : parseDigits (0x30 :: rest) 0 = parseDigits rest 0 := by
      norm_num [parseDigits, isDigitB]
    rw [h1]
    simp only [parseNat, show isDigitB 0x30 = true by decide, if_true, h2]
    rw [parseDigits_stop rest _ hnd]
  · have hpos : 0 < n := Nat.pos_of_ne_zero hn
    have hall := digitsFuel_all_digits n n
    have hnn := digitsFuel_ne_nil n n hpos (le_refl n)
    obtain ⟨d, ds, hds⟩ := List.exists_cons_of_ne_nil hnn
    obtain ⟨p, hp, hfold⟩ := digitsFuel_foldl n n 0 hpos (le_refl n)
    simp only [encNat, hn, if_false]
    rw [hds] at hall hfold ⊢
    simp only [List.cons_append, parseNat, hall d (List.mem_cons_self _ _), if_true]
    rw [show d :: (ds ++ rest) = (d :: ds) ++ rest from rfl,
      parseDigits_append _ _ _ hall, hfold, parseDigits_stop rest _ hnd]
    simp

theorem hexVal_hexDigit (m : Nat) (hm : m < 16) : hexVal (hexDigit m) = some m := by
  by_cases h : m < 10
  · have h1 : hexDigit m = 0x30 + m := by simp [hexDigit, h]
    rw [h1, hexVal, if_pos (by omega)]
    simp
  · have h1 : hexDigit m = 0x57 + m := by simp [hexDigit, h]
    rw [h1, hexVal, if_neg (by omega), if_pos (by omega)]
    simp

theorem char_toNat_lt (c : Char) : c.toNat < 0x110000 := by
  have h := c.valid
  rcases h with h | h
  · simp only [Char.toNat]
    omega
  · obtain ⟨h1, h2⟩ := h
    simp only [Char.toNat]
    omega

theorem parseUtf8_utf8Bytes (c : Char) (T : Bytes)
    (h22 : c.toNat ≠ 0x22) (h5c : c.toNat ≠ 0x5C) :
    ∃ b bs, utf8Bytes c = b :: bs ∧ b ≠ 0x22 ∧ b ≠ 0x5C ∧
      parseUtf8 b (bs ++ T) = some (c, T) := by
  have hch : Char.ofNat c.toNat = c := Char.ofNat_toNat c
  have hlt := char_toNat_lt c
  by_cases h80 : c.toNat < 0x80
  · refine ⟨c.toNat, [], by simp [utf8Bytes, h80], h22, h5c, ?_⟩
    rw [List.nil_append]
    unfold parseUtf8
    rw [if_pos h80, hch]
  · by_cases h800 : c.toNat < 0x800
    · refine ⟨0xC0 + c.toNat / 64, [0x80 + c.toNat % 64],
        by simp [utf8Bytes, h80, h800], by omega, by omega, ?_⟩
      rw [List.cons_append, List.nil_append]
      unfold parseUtf8
      rw [if_neg (by omega), if_neg (by omega), if_pos (by omega)]
      simp only []
      rw [if_pos (by omega)]
      rw [show (0xC0 + c.toNat / 64 - 0xC0) * 64 + (0x80 + c.toNat % 64 - 0x80) =
        c.toNat by omega, hch]
    · by_cases h10000 : c.toNat < 0x10000
      · refine ⟨0xE0 + c.toNat / 4096,
          [0x80 + c.toNat / 64 % 64, 0x80 + c.toNat % 64],
          by simp [utf8Bytes, h80, h800, h10000], by omega, by omega, ?_⟩
        rw [List.cons_append, List.cons_append, List.nil_append]
        unfold parseUtf8
        rw [if_neg (by omega), if_neg (by omega), if_neg (by omega),
          if_pos (by omega)]
        simp only []
        rw [if_pos (by exact ⟨⟨by omega, by omega⟩, by omega, by omega⟩)]
        rw [show (0xE0 + c.toNat / 4096 - 0xE0) * 4096 +
          (0x80 + c.toNat / 64 % 64 - 0x80) * 64 +
          (0x80 + c.toNat % 64 - 0x80) = c.toNat by omega, hch]
      · refine ⟨0xF0 + c.toNat / 262144,
          [0x80 + c.toNat / 4096 % 64, 0x80 + c.toNat / 64 % 64,
            0x80 + c.toNat % 64],
          by simp [utf8Bytes, h80, h800, h10000], by omega, by omega, ?_⟩
        rw [List.cons_append, List.cons_append, List.cons_append,
          List.nil_append]
        unfold parseUtf8
        rw [if_neg (by omega), if_neg (by omega), if_neg (by omega),
          if_neg (by omega), if_pos (by omega)]
        simp only []
        rw [if_pos (by exact ⟨⟨by omega, by omega⟩, ⟨by omega, by omega⟩,
          by omega, by omega⟩)]
        rw [show (0xF0 + c.toNat / 262144 - 0xF0) * 262144 +
          (0x80 + c.toNat / 4096 % 64 - 0x80) * 4096 +
          (0x80 + c.toNat / 64 % 64 - 0x80) * 64 +
          (0x80 + c.toNat % 64 - 0x80) = c.toNat by omega, hch]

/-- Parsing the escaped body of a JSON string recovers the original
characters, with any sufficient fuel. -/
theorem parseJStrBodyF_enc (s : Str) (rest : Bytes) (fuel : Nat)
    (hf : s.length + 1 ≤ fuel) :
    parseJStrBodyF fuel ((s.map escChar).flatten ++ 0x22 :: rest) =
      some (s, rest) := by
  induction s generalizing fuel with
  | nil =>
      obtain ⟨f, rfl⟩ : ∃ f, fuel = f + 1 := ⟨fuel - 1, by omega⟩
      simp [parseJStrBodyF]
  | cons c s' ih =>
      obtain ⟨f, rfl⟩ : ∃ f, fuel = f + 1 := ⟨fuel - 1, by omega⟩
      have hf' : s'.length + 1 ≤ f := by
        simp only [List.length_cons] at hf
        omega
      have hch : Char.ofNat c.toNat = c := Char.ofNat_toNat c
      have hih := ih f hf'
      simp only [List.map_cons, List.flatten_cons, List.append_assoc]
      by_cases h22 : c.toNat = 0x22
      · have he : escChar c = [0x5C, 0x22] := by simp [escChar, h22]
        have hc : Char.ofNat 0x22 = c := by rw [← h22, hch]
        rw [he]
        simp [parseJStrBodyF, parseEscape, hih]
        exact hc
      · by_cases h5c : c.toNat = 0x5C
        · have he : escChar c = [0x5C, 0x5C] := by simp [escChar, h22, h5c]
          have hc : Char.ofNat 0x5C = c := by rw [← h5c, hch]
          rw [he]
          simp [parseJStrBodyF, parseEscape, hih]
          exact hc
        · by_cases h08 : c.toNat = 0x08
          · have he : escChar c = [0x5C, 0x62] := by simp [escChar, h22, h5c, h08]
            have hc : Char.ofNat 0x08 = c := by rw [← h08, hch]
            rw [he]
            simp [parseJStrBodyF, parseEscape, hih]
            exact hc
          · by_cases h09 : c.toNat = 0x09
            · have he : escChar c = [0x5C, 0x74] := by
                simp [escChar, h22, h5c, h08, h09]
              have hc : Char.ofNat 0x09 = c := by rw [← h09, hch]
              rw [he]
              simp [parseJStrBodyF, parseEscape, hih]
              exact hc
            · by_cases h0a : c.toNat = 0x0A
              · have he : escChar c = [0x5C, 0x6E] := by
                  simp [escChar, h22, h5c, h08, h09, h0a]
                have hc : Char.ofNat 0x0A = c := by rw [← h0a, hch]
                rw [he]
                simp [parseJStrBodyF, parseEscape, hih]
                exact hc
              · by_cases h0c : c.toNat = 0x0C
                · have he : escChar c = [0x5C, 0x66] := by
                    simp [escChar, h22, h5c, h08, h09, h0a, h0c]
                  have hc : Char.ofNat 0x0C = c := by rw [← h0c, hch]
                  rw [he]
                  simp [parseJStrBodyF, parseEscape, hih]
                  exact hc
                · by_cases h0d : c.toNat = 0x0D
                  · have he : escChar c = [0x5C, 0x72] := by
                      simp [escChar, h22, h5c, h08, h09, h0a, h0c, h0d]
                    have hc : Char.ofNat 0x0D = c := by rw [← h0d, hch]
                    rw [he]
                    simp [parseJStrBodyF, parseEscape, hih]
                    exact hc
                  · by_cases hctl : c.toNat < 0x20
                    · have he : escChar c = [0x5C, 0x75, 0x30, 0x30,
                          hexDigit (c.toNat / 16), hexDigit (c.toNat % 16)] := by
                        simp [escChar, h22, h5c, h08, h09, h0a, h0c, h0d, hctl]
                      have hh1 : hexVal 0x30 = some 0 := by decide
                      have hh3 : hexVal (hexDigit (c.toNat / 16)) =
                          some (c.toNat / 16) := hexVal_hexDigit _ (by omega)
                      have hh4 : hexVal (hexDigit (c.toNat % 16)) =
                          some (c.toNat % 16) := hexVal_hexDigit _ (by omega)
                      have hd1 : hexDigit (c.toNat / 16) ≠ 0x22 := by
                        simp [hexDigit]
                        split <;> omega
                      have hd2 : hexDigit (c.toNat / 16) ≠ 0x5C := by
                        simp [hexDigit]
                        split <;> omega
                      have hv : (0 : Nat) * 4096 + 0 * 256 + c.toNat / 16 * 16 +
                          c.toNat % 16 = c.toNat := by omega
                      rw [he]
                      simp only [List.cons_append, List.nil_append]
                      rw [show parseJStrBodyF (f + 1)
                          (0x5C :: 0x75 :: 0x30 :: 0x30 :: hexDigit (c.toNat / 16) ::
                            hexDigit (c.toNat % 16) ::
                            ((s'.map escChar).flatten ++ 0x22 :: rest)) =
                          match parseEscape (0x75 :: 0x30 :: 0x30 ::
                            hexDigit (c.toNat / 16) :: hexDigit (c.toNat % 16) ::
                            ((s'.map escChar).flatten ++ 0x22 :: rest)) with
                          | none => none
                          | some cr => (parseJStrBodyF f cr.2).map fun p =>
                              (cr.1 :: p.1, p.2) from by
                        simp [parseJStrBodyF]]
                      rw [show parseEscape (0x75 :: 0x30 :: 0x30 ::
                          hexDigit (c.toNat / 16) :: hexDigit (c.toNat % 16) ::
                          ((s'.map escChar).flatten ++ 0x22 :: rest)) =
                          some (Char.ofNat (0 * 4096 + 0 * 256 +
                            c.toNat / 16 * 16 + c.toNat % 16),
                            (s'.map escChar).flatten ++ 0x22 :: rest) from by
                        simp [parseEscape, hh1, hh3, hh4]]
                      rw [hv, hch]
                      simp [hih]
                    · have hne22 : c.toNat ≠ 0x22 := h22
                      have hne5c : c.toNat ≠ 0x5C := h5c
                      have he : escChar c = utf8Bytes c := by
                        simp [escChar, h22, h5c, h08, h09, h0a, h0c, h0d, hctl]
                      obtain ⟨b, bs, hu, hb22, hb5c, hp⟩ :=
                        parseUtf8_utf8Bytes c ((s'.map escChar).flatten ++ 0x22 :: rest)
                          hne22 hne5c
                      rw [he, hu]
                      simp only [List.cons_append, List.append_assoc]
                      rw [show parseJStrBodyF (f + 1)
                          (b :: (bs ++ ((s'.map escChar).flatten ++ 0x22 :: rest))) =
                          match parseUtf8 b
                            (bs ++ ((s'.map escChar).flatten ++ 0x22 :: rest)) with
                          | none => none
                          | some cr => (parseJStrBodyF f cr.2).map fun p =>
                              (cr.1 :: p.1, p.2) from by
                        simp [parseJStrBodyF, hb22, hb5c]]
                      rw [hp]
                      simp [hih]

theorem utf8Bytes_length_pos (c : Char) : 1 ≤ (utf8Bytes c).length := by
  unfold utf8Bytes
  by_cases u1 : c.toNat < 0x80
  · simp [u1]
  · by_cases u2 : c.toNat < 0x800
    · simp [u1, u2]
    · by_cases u3 : c.toNat < 0x10000
      · simp [u1, u2, u3]
      · simp [u1, u2, u3]

theorem escChar_length_pos (c : Char) : 1 ≤ (escChar c).length := by
  unfold escChar
  by_cases h1 : c.toNat = 0x22
  · simp [h1]
  ·
    by_cases h2 : c.toNat = 0x5C
    · simp [h1, h2]
    ·
      by_cases h3 : c.toNat = 0x08
      · simp [h1, h2, h3]
      ·
        by_cases h4 : c.toNat = 0x09
        · simp [h1, h2, h3, h4]
        ·
          by_cases h5 : c.toNat = 0x0A
          · simp [h1, h2, h3, h4, h5]
          ·
            by_cases h6 : c.toNat = 0x0C
            · simp [h1, h2, h3, h4, h5, h6]
            ·
              by_cases h7 : c.toNat = 0x0D
              · simp [h1, h2, h3, h4, h5, h6, h7]
              ·
                by_cases h8 : c.toNat < 0x20
                · simp [h1, h2, h3, h4, h5, h6, h7, h8]
                · simp [h1, h2, h3, h4, h5, h6, h7, h8, utf8Bytes_length_pos]

theorem length_le_flatten_escChar (s : Str) :
    s.length ≤ ((s.map escChar).flatten).length := by
  induction s with
  | nil => simp
  | cons c s' ih =>
      simp only [List.map_cons, List.flatten_cons, List.length_append,
        List.length_cons]
      have := escChar_length_pos c
      omega

/-- Parsing the escaped body of a JSON string recovers the original
characters and leaves the bytes after the closing quote untouched. -/
theorem parseJStrBody_enc (s : Str) (rest : Bytes) :
    parseJStrBody ((s.map escChar).flatten ++ 0x22 :: rest) = some (s, rest) := by
  unfold parseJStrBody
  refine parseJStrBodyF_enc s rest _ ?_
  have := length_le_flatten_escChar s
  simp only [List.length_append, List.length_cons]
  omega

/-- JSON string literals roundtrip. -/
theorem parseJStr_enc (s : Str) (rest : Bytes) :
    parseJStr (encJStr s ++ rest) = some (s, rest) := by
  have h : encJStr s ++ rest =
      0x22 :: ((s.map escChar).flatten ++ 0x22 :: rest) := by
    simp [encJStr]
  rw [h]
  simp only [parseJStr, if_pos rfl]
  exact parseJStrBody_enc s rest

theorem parseAgent_enc (a : AgentKind) (rest : Bytes) :
    parseAgent (encAgent a ++ rest) = some (a, rest) := by
  cases a <;> simp [parseAgent, encAgent, parseJStr_enc]

theorem parseStatus_enc (st : SessionStatus) (rest : Bytes) :
    parseStatus (encStatus st ++ rest) = some (st, rest) := by
  cases st <;> simp [parseStatus, encStatus, parseJStr_enc]

theorem parseProtocol_enc (pr : TransportProtocol) (rest : Bytes) :
    parseProtocol (encProtocol pr ++ rest) = some (pr, rest) := by
  cases pr <;> simp [parseProtocol, encProtocol, parseJStr_enc]

theorem parseOptStr_enc (o : Option Str) (rest : Bytes) :
    parseOptStr (encOptStr o ++ rest) = some (o, rest) := by
  cases o with
  | none =>
      rw [show encOptStr none ++ rest =
        0x6E :: ([0x75, 0x6C, 0x6C] ++ rest) from rfl]
      simp only [parseOptStr, if_pos rfl, expectB_append, Option.map_some']
      simp [expectB_append]
  | some s =>
      have h : encOptStr (some s) ++ rest =
          0x22 :: ((s.map escChar).flatten ++ 0x22 :: rest) := by
        simp [encOptStr, encJStr]
      rw [h]
      simp only [parseOptStr]
      rw [if_neg (by omega)]
      have h2 : parseJStr (0x22 :: ((s.map escChar).flatten ++ 0x22 :: rest)) =
          some (s, rest) := by
        simp only [parseJStr, if_pos rfl]
        exact parseJStrBody_enc s rest
      rw [h2]
      rfl

theorem sepByComma_length_ge (L : List Bytes) (h : ∀ bs ∈ L, 1 ≤ bs.length) :
    L.length ≤ (sepByComma L).length := by
  induction L with
  | nil => simp [sepByComma]
  | cons x L' ih =>
      cases L' with
      | nil =>
          simp only [sepByComma, List.length_cons, List.length_nil]
          have := h x (List.mem_cons_self _ _)
          omega
      | cons y L'' =>
          have hx := h x (List.mem_cons_self _ _)
          have ih' := ih fun bs hbs => h bs (List.mem_cons_of_mem _ hbs)
          simp only [sepByComma, List.length_append, List.length_cons] at *
          omega

/-- Parsing a comma-separated run of encoded items recovers the items. -/
theorem parseItems_enc {α : Type} (p : Bytes → Option (α × Bytes))
    (enc : α → Bytes) (hp : ∀ y r, p (enc y ++ r) = some (y, r))
    (x : α) (xs : List α) (rest : Bytes) :
    ∀ fuel, xs.length + 1 ≤ fuel →
      parseItems p fuel (sepByComma ((x :: xs).map enc) ++ 0x5D :: rest) =
        some (x :: xs, rest) := by
  induction xs generalizing x with
  | nil =>
      intro fuel hfuel
      obtain ⟨f, rfl⟩ : ∃ f, fuel = f + 1 := ⟨fuel - 1, by omega⟩
      simp only [List.map_cons, List.map_nil, sepByComma, parseItems]
      rw [hp x (0x5D :: rest)]
      simp
  | cons y ys ih =>
      intro fuel hfuel
      obtain ⟨f, rfl⟩ : ∃ f, fuel = f + 1 := ⟨fuel - 1, by omega⟩
      have hshape : sepByComma ((x :: y :: ys).map enc) ++ 0x5D :: rest =
          enc x ++ 0x2C :: (sepByComma ((y :: ys).map enc) ++ 0x5D :: rest) := by
        simp only [List.map_cons, sepByComma, List.append_assoc, List.cons_append]
      rw [hshape]
      simp only [parseItems]
      rw [hp x (0x2C :: (sepByComma ((y :: ys).map enc) ++ 0x5D :: rest))]
      have hih := ih y f (by simp only [List.length_cons] at hfuel ⊢; omega)
      simp only [List.map_cons] at hih
      simp [hih]

theorem expectB_singleton (b : Nat) (r : Bytes) : expectB [b] (b :: r) = some r := by
  simp [expectB]

theorem parseNat_enc_comma (n : Nat) (r : Bytes) :
    parseNat (encNat n ++ 0x2C :: r) = some (n, 0x2C :: r) := by
  refine parseNat_enc n (0x2C :: r) ?_
  intro b hb
  simp only [List.head?_cons, Option.some.injEq] at hb
  subst hb
  decide

/-- Parsing an encoded JSON array recovers the element list. -/
theorem parseArr_enc {α : Type} (p : Bytes → Option (α × Bytes)) (enc : α → Bytes)
    (hp : ∀ y r, p (enc y ++ r) = some (y, r))
    (hne : ∀ y, enc y ≠ [])
    (hhead : ∀ y b t, enc y = b :: t → b ≠ 0x5D)
    (xs : List α) (rest : Bytes) :
    parseArr p (encArr (xs.map enc) ++ rest) = some (xs, rest) := by
  cases xs with
  | nil =>
      rw [show encArr (([] : List α).map enc) ++ rest =
        0x5B :: 0x5D :: rest from by simp [encArr, sepByComma]]
      simp [parseArr]
  | cons x xs' =>
      have hshape : encArr ((x :: xs').map enc) ++ rest =
          0x5B :: (sepByComma ((x :: xs').map enc) ++ 0x5D :: rest) := by
        simp [encArr]
      rw [hshape]
      obtain ⟨b, t, hencx⟩ := List.exists_cons_of_ne_nil (hne x)
      have hb := hhead x b t hencx
      have hlen1 : ∀ y, 1 ≤ (enc y).length := by
        intro y
        have := hne y
        cases h : enc y with
        | nil => exact absurd h this
        | cons a l => simp
      have hsep := sepByComma_length_ge ((x :: xs').map enc) (by
        intro bs hbs
        rcases List.mem_map.mp hbs with ⟨y, _, rfl⟩
        exact hlen1 y)
      obtain ⟨R, hR⟩ : ∃ R, sepByComma ((x :: xs').map enc) = enc x ++ R := by
        cases xs' with
        | nil => exact ⟨[], by simp [sepByComma]⟩
        | cons z zs => exact ⟨0x2C :: sepByComma ((z :: zs).map enc), by
            simp [sepByComma]⟩
      have hS : sepByComma ((x :: xs').map enc) ++ 0x5D :: rest =
          b :: (t ++ (R ++ 0x5D :: rest)) := by
        rw [hR, hencx]
        simp
      rw [hS]
      simp only [parseArr]
      rw [if_pos trivial, if_neg hb]
      rw [← hS]
      refine parseItems_enc p enc hp x xs' rest _ ?_
      simp only [List.length_append, List.length_cons, List.length_map] at hsep ⊢
      omega

theorem parseArr_jstr_enc (xs : List Str) (rest : Bytes) :
    parseArr parseJStr (encArr (xs.map encJStr) ++ rest) = some (xs, rest) := by
  refine parseArr_enc parseJStr encJStr parseJStr_enc ?_ ?_ xs rest
  · intro y
    simp [encJStr]
  · intro y b t h
    rw [show encJStr y = 0x22 :: ((y.map escChar).flatten ++ [0x22]) from by
      simp [encJStr]] at h
    cases h
    omega

/-- The canonical serialization of a `SessionEvent` parses back to it. -/
theorem parseEvent_enc (e : SessionEvent) (rest : Bytes) :
    parseEvent (encEvent e ++ rest) = some (e, rest) := by
  simp only [encEvent, List.cons_append, List.append_assoc]
  simp only [parseEvent, expectB_cons_append, parseJStr_enc, parseAgent_enc,
    parseStatus_enc, parseOptStr_enc, parseNat_enc_comma, parseArr_jstr_enc,
    expectB_singleton]

theorem parseArr_event_enc (xs : List SessionEvent) (rest : Bytes) :
    parseArr parseEvent (encArr (xs.map encEvent) ++ rest) = some (xs, rest) := by
  refine parseArr_enc parseEvent encEvent parseEvent_enc ?_ ?_ xs rest
  · intro y
    simp [encEvent]
  · intro y b t h
    rw [show encEvent y = 0x7B :: (kq ("id".toList) ++ (encJStr y.id ++
      (0x2C :: kq ("agent".toList) ++ encAgent y.agent ++
       0x2C :: kq ("title".toList) ++ encJStr y.title ++
       0x2C :: kq ("working_dir".toList) ++ encJStr y.working_dir ++
       0x2C :: kq ("user".toList) ++ encJStr y.user ++
       0x2C :: kq ("status".toList) ++ encStatus y.status ++
       0x2C :: kq ("pending_action".toList) ++ encOptStr y.pending_action ++
       0x2C :: kq ("started_at_unix_ms".toList) ++ encNat y.started_at_unix_ms ++
       0x2C :: kq ("updated_at_unix_ms".toList) ++ encNat y.updated_at_unix_ms ++
       0x2C :: kq ("last_lines".toList) ++ encArr (y.last_lines.map encJStr) ++
       [0x7D]))) from by simp [encEvent]] at h
    cases h
    omega

/-- The canonical serialization of a `SyncEnvelope` parses back to it. -/
theorem parseEnvelope_enc (env : SyncEnvelope) (rest : Bytes) :
    parseEnvelope (encEnvelope env ++ rest) = some (env, rest) := by
  simp only [encEnvelope, List.cons_append, List.append_assoc]
  simp only [parseEnvelope, expectB_cons_append, parseJStr_enc,
    parseNat_enc_comma, parseProtocol_enc, parseArr_event_enc, expectB_singleton]

/-- The canonical serialization of a `PullRequest` parses back to it. -/
theorem parsePullRequest_enc (r : PullRequest) (rest : Bytes) :
    parsePullRequest (encPullRequest r ++ rest) = some (r, rest) := by
  simp only [encPullRequest, List.cons_append, List.append_assoc]
  simp only [parsePullRequest, expectB_cons_append, parseJStr_enc,
    expectB_singleton]

/-- The byte-wise XOR transform is an involution. -/
theorem decrypt_encrypt (bs : Bytes) :
    decrypt_like_transport (encrypt_like_transport bs) = bs := by
  unfold decrypt_like_transport encrypt_like_transport
  rw [List.map_map]
  have h : ∀ b ∈ bs, ((· ^^^ (0xA5 : Nat)) ∘ (· ^^^ (0xA5 : Nat))) b = id b := by
    intro b _
    simp [Function.comp, Nat.xor_assoc]
  rw [List.map_congr_left h, List.map_id]

/-- C6: for every envelope (any peer label, nonce, protocol tag, and payload
of session records), decoding the encoded envelope returns it unchanged. -/
theorem decode_encode_envelope (env : SyncEnvelope) :
    decode_envelope (encode_envelope env) = some env := by
  unfold decode_envelope encode_envelope
  rw [decrypt_encrypt]
  have h := parseEnvelope_enc env []
  rw [List.append_nil] at h
  rw [h]
  simp

/-- C5 counterexample: the request bytes `pull_once` writes are the plain
`serde_json` serialization of the `PullRequest`, not its XOR-transformed
serialization as claimed (shown at the concrete key `"abc"`). -/
theorem pull_request_not_xored :
    pullRequestWireBytes ("abc".toList) ≠
      encrypt_like_transport (encPullRequest (PullRequest.mk ("abc".toList))) := by
  decide

/-- C5 (amended): the envelope response is serialized and then XOR-obfuscated,
but the pull request is serialized and written raw (no XOR); the server's
`from_slice` parses those raw bytes directly, recovering the request. -/
theorem pull_request_wire_roundtrip (k : Str) :
    decodePullRequest (pullRequestWireBytes k) = some (PullRequest.mk k) ∧
    ∀ env : SyncEnvelope,
      encode_envelope env = encrypt_like_transport (encEnvelope env) := by
  constructor
  · unfold decodePullRequest pullRequestWireBytes
    have h := parsePullRequest_enc (PullRequest.mk k) []
    rw [List.append_nil] at h
    rw [h]
    simp
  · intro env
    rfl

/-! ## Embedding of `SyncServer::serve_once` (`src/sync.rs`) -/

/-- `SecurityLayer` from `src/security.rs`, modelled by the boolean test its
stored SHA-256 digest induces on candidate keys (`verify_key`); the digest
function itself lives in an external crate. -/
structure SecurityLayer where
  verify_key : Str → Bool

/-- One accepted inbound connection, abstracted by the outcome of
`read_to_end` (`none` models a read error) and whether `write_all`
succeeds. -/
structure Conn where
  readBytes : Option Bytes
  writeOk : Bool
  deriving DecidableEq

/-- One outcome of `listener.accept()` in the drain loop. -/
inductive AcceptStep
  | conn (c : Conn)
  | wouldBlock
  | fatal
  deriving DecidableEq

/-- The error paths of `serve_once` (each surfaced through `?` / early
`return Err`). -/
inductive ServeErr
  | acceptFailed
  | readFailed
  | writeFailed
  deriving DecidableEq, Repr

/-- `SyncClient::prepare_envelope`: filter every event through
`filter_sensitive` and wrap; `none` models a redaction panic. -/
def prepare_envelope (peer : Str) (nonce : Nat) (protocol : TransportProtocol)
    (events : List SessionEvent) : Option SyncEnvelope :=
  (events.mapM filter_sensitive).map fun filtered =>
    SyncEnvelope.mk peer nonce protocol filtered

/-- `SyncServer::serve_once` from `src/sync.rs`: drain the pending accept
outcomes, skipping empty / malformed / unauthenticated requests, serving the
rest, stopping at `WouldBlock`; read, write and accept failures abort with
an error (the outer `Option` is `none` when redaction panics). An exhausted
step list ends the drain like `WouldBlock` would. -/
def serve_once (sec : SecurityLayer) (local_events : List SessionEvent)
    (peer_name : Str) (nonce : Nat) (protocol : TransportProtocol) :
    List AcceptStep → Nat → Option (Except ServeErr Nat)
  | [], served => some (.ok served)
  | step :: rest, served =>
    match step with
    | .wouldBlock => some (.ok served)
    | .fatal => some (.error .acceptFailed)
    | .conn c =>
        match c.readBytes with
        | none => some (.error .readFailed)
        | some bytes =>
            if bytes = [] then
              serve_once sec local_events peer_name nonce protocol rest served
            else
              match decodePullRequest bytes with
              | none => serve_once sec local_events peer_name nonce protocol rest served
              | some req =>
                  if sec.verify_key req.auth_key = false then
                    serve_once sec local_events peer_name nonce protocol rest served
                  else
                    match prepare_envelope peer_name nonce protocol local_events with
                    | none => none
                    | some envelope =>
                        let _encoded := encode_envelope envelope
                        if c.writeOk then
                          serve_once sec local_events peer_name nonce protocol rest
                            (served + 1)
                        else some (.error .writeFailed)

/-- C4 counterexample: a read failure on an accepted connection aborts
`serve_once` with an error even though no accept-level failure occurred, so
per-connection failures are not all swallowed. -/
theorem serve_once_read_error_aborts :
    serve_once (SecurityLayer.mk fun _ => true) [] ("p".toList) 1 .Http
        [AcceptStep.conn (Conn.mk none true)] 0 =
      some (Except.error ServeErr.readFailed) ∧
    ServeErr.readFailed ≠ ServeErr.acceptFailed := by
  refine ⟨rfl, by decide⟩

/-- C4 (amended): a zero-byte request, a malformed request frame, and a
failed key verification are each swallowed — the connection is skipped
without a response, `served` is unchanged and the drain continues;
`WouldBlock` ends the drain returning the count; an accept-level failure
aborts with an error — and so do a read failure on an accepted connection
(and a write failure), via the `?` operator. -/
theorem serve_once_drain_behavior (sec : SecurityLayer)
    (events : List SessionEvent) (pn : Str) (nonce : Nat)
    (proto : TransportProtocol) (c : Conn) (rest : List AcceptStep) (n : Nat) :
    (∀ bytes, c.readBytes = some bytes →
      (bytes = [] ∨ decodePullRequest bytes = none ∨
        (∃ req, decodePullRequest bytes = some req ∧
          sec.verify_key req.auth_key = false)) →
      serve_once sec events pn nonce proto (.conn c :: rest) n =
        serve_once sec events pn nonce proto rest n) ∧
    serve_once sec events pn nonce proto (.wouldBlock :: rest) n =
      some (.ok n) ∧
    serve_once sec events pn nonce proto (.fatal :: rest) n =
      some (.error .acceptFailed) ∧
    (c.readBytes = none →
      serve_once sec events pn nonce proto (.conn c :: rest) n =
        some (.error .readFailed)) ∧
    (∀ bytes req env, c.readBytes = some bytes → bytes ≠ [] →
      decodePullRequest bytes = some req →
      sec.verify_key req.auth_key = true →
      prepare_envelope pn nonce proto events = some env →
      c.writeOk = false →
      serve_once sec events pn nonce proto (.conn c :: rest) n =
        some (.error .writeFailed)) := by
  refine ⟨?_, rfl, rfl, ?_, ?_⟩
  · intro bytes hread hcase
    simp only [serve_once, hread]
    rcases hcase with h | h | ⟨req, hreq, hver⟩
    · rw [if_pos h]
    · by_cases hb : bytes = []
      · rw [if_pos hb]
      · rw [if_neg hb, h]
    · have hne : bytes ≠ [] := by
        intro hcontra
        rw [hcontra] at hreq
        rw [show decodePullRequest ([] : Bytes) = none from rfl] at hreq
        cases hreq
      rw [if_neg hne]
      simp only [hreq]
      rw [if_pos hver]
  · intro hnone
    simp only [serve_once, hnone]
  · intro bytes req env hread hne hreq hver hprep hw
    simp only [serve_once, hread]
    rw [if_neg hne]
    simp only [hreq]
    rw [if_neg (by rw [hver]; exact fun h => Bool.noConfusion h)]
    simp only [hprep, hw]
    rw [if_neg (fun h => Bool.noConfusion h)]

/-- Witness for C4 (amended): a zero-byte connection is skipped, `WouldBlock`
ends the drain, and a valid authenticated request whose response write fails
aborts with a write error. -/
theorem serve_once_drain_behavior_witness :
    serve_once (SecurityLayer.mk fun _ => true) [] ("p".toList) 1 .Http
        [.conn (Conn.mk (some []) true)] 0 =
      serve_once (SecurityLayer.mk fun _ => true) [] ("p".toList) 1 .Http [] 0 ∧
    serve_once (SecurityLayer.mk fun _ => true) [] ("p".toList) 1 .Http
        [.wouldBlock] 0 = some (.ok 0) ∧
    serve_once (SecurityLayer.mk fun _ => true) [] ("p".toList) 1 .Http
        [.conn (Conn.mk (some (pullRequestWireBytes ("k".toList))) false)] 0 =
      some (.error .writeFailed) :=
  ⟨(serve_once_drain_behavior (SecurityLayer.mk fun _ => true) [] ("p".toList) 1
      .Http (Conn.mk (some []) true) [] 0).1 [] rfl (Or.inl rfl),
    (serve_once_drain_behavior (SecurityLayer.mk fun _ => true) [] ("p".toList) 1
      .Http (Conn.mk (some []) true) [] 0).2.1,
    (serve_once_drain_behavior (SecurityLayer.mk fun _ => true) [] ("p".toList) 1
      .Http (Conn.mk (some (pullRequestWireBytes ("k".toList))) false) [] 0).2.2.2.2
      (pullRequestWireBytes ("k".toList)) (PullRequest.mk ("k".toList))
      (SyncEnvelope.mk ("p".toList) 1 .Http []) rfl (by decide) (by decide)
      rfl rfl rfl⟩

end AgentBox
